import Mathlib

/-!
Verification development for the browsertunnel fragment-reassembly core
(`tunnel.go`).  Go strings are modelled as `List Char`, Go byte slices as
`List Nat` (each element `< 256`), Go `int` as `Int` (64-bit range checks made
explicit where the source performs them), and the two goroutine loops as pure
step functions over an explicit store state.
-/

set_option maxHeartbeats 1000000

namespace Tunnel

/-! ### The base32 codec

`tunnel.go` line 15 defines
`decoder = base32.NewEncoding("abcdefghijklmnopqrstuvwxyz234567").WithPadding('0')`.
Decoding (`DecodeString`) is modelled from Go `encoding/base32`; the encoder
(used by the out-of-repo client side) is modelled from the spec's wire
sub-protocol: the same fixed 32-symbol alphabet with pad character `0`. -/

def alphabetChars : List Char := "abcdefghijklmnopqrstuvwxyz234567".toList

/-- Index of `v & 31` in the alphabet, as in Go's `enc.encode[b[i]&31]`. -/
def encChar (v : Nat) : Char := alphabetChars.getD (v % 32) ' '

def decodeCharAux : List Char → Nat → Char → Option Nat
  | [], _, _ => none
  | a :: rest, i, c => if c = a then some i else decodeCharAux rest (i + 1) c

/-- Go's `decodeMap` lookup: position of the character in the alphabet,
`none` standing for the `0xFF` invalid marker. -/
def decodeChar (c : Char) : Option Nat := decodeCharAux alphabetChars 0 c

/-- One 1..5-byte group of Go's base32 encode loop (the `switch len(src)`
with fallthroughs): the five-bit values present for that group length are
emitted as alphabet characters, the rest of the 8-character quantum as the
pad character `'0'`. -/
def encGroup : List Nat → List Char
  | [x0] =>
    List.map encChar [x0 / 8, x0 % 8 * 4] ++ List.replicate 6 '0'
  | [x0, x1] =>
    List.map encChar [x0 / 8, x0 % 8 * 4 + x1 / 64, x1 / 2 % 32, x1 % 2 * 16]
      ++ List.replicate 4 '0'
  | [x0, x1, x2] =>
    List.map encChar [x0 / 8, x0 % 8 * 4 + x1 / 64, x1 / 2 % 32,
      x1 % 2 * 16 + x2 / 16, x2 % 16 * 2] ++ List.replicate 3 '0'
  | [x0, x1, x2, x3] =>
    List.map encChar [x0 / 8, x0 % 8 * 4 + x1 / 64, x1 / 2 % 32,
      x1 % 2 * 16 + x2 / 16, x2 % 16 * 2 + x3 / 128, x3 / 4 % 32, x3 % 4 * 8]
      ++ List.replicate 1 '0'
  | x0 :: x1 :: x2 :: x3 :: x4 :: _ =>
    List.map encChar [x0 / 8, x0 % 8 * 4 + x1 / 64, x1 / 2 % 32,
      x1 % 2 * 16 + x2 / 16, x2 % 16 * 2 + x3 / 128, x3 / 4 % 32,
      x3 % 4 * 8 + x4 / 32, x4 % 32]
  | [] => []

/-- Go base32 `EncodeToString`: the source is consumed five bytes at a time,
each group yielding one 8-character quantum (padded for a final short group). -/
def goEncode : List Nat → List Char
  | [] => []
  | [a] => encGroup [a]
  | [a, b] => encGroup [a, b]
  | [a, b, c] => encGroup [a, b, c]
  | [a, b, c, d] => encGroup [a, b, c, d]
  | a :: b :: c :: d :: e :: rest => encGroup [a, b, c, d, e] ++ goEncode rest

/-- The `j`-loop of Go base32 `decode`: reads up to 8 five-bit values of one
quantum.  `fuel` counts the remaining iterations (`fuel = 8 - j`).  Returns
the collected values, whether a pad character ended the input (`end` in Go),
and the unconsumed input; `none` is a `CorruptInputError`. -/
def readQuantum : Nat → Nat → List Nat → List Char →
    Option (List Nat × Bool × List Char)
  | 0, _, acc, src => some (acc, false, src)
  | fuel + 1, j, acc, src =>
    match src with
    | [] => none
    | c :: rest =>
      if c = '0' ∧ 2 ≤ j ∧ rest.length < 8 then
        if rest.length + j < 7 then none
        else if (List.range (7 - j)).all
            (fun k => decide (rest.length ≤ k) || decide (rest.getD k ' ' = '0')) then
          if j = 1 ∨ j = 3 ∨ j = 6 then none
          else some (acc, true, rest)
        else none
      else
        match decodeChar c with
        | none => none
        | some v => readQuantum fuel (j + 1) (acc ++ [v]) rest

/-- The `switch dlen` packing step of Go base32 `decode`: the 5-bit values of
one quantum (`dlen` of 2, 4, 5, 7 or 8 of them) to the destination bytes.
Shifts that overflow a Go `byte` carry an explicit `% 256`. -/
def packQuantum : List Nat → List Nat
  | [d0, d1] => [d0 * 8 + d1 / 4]
  | [d0, d1, d2, d3] =>
    [d0 * 8 + d1 / 4, d1 * 64 % 256 + d2 * 2 + d3 / 16]
  | [d0, d1, d2, d3, d4] =>
    [d0 * 8 + d1 / 4, d1 * 64 % 256 + d2 * 2 + d3 / 16, d3 * 16 % 256 + d4 / 2]
  | [d0, d1, d2, d3, d4, d5, d6] =>
    [d0 * 8 + d1 / 4, d1 * 64 % 256 + d2 * 2 + d3 / 16, d3 * 16 % 256 + d4 / 2,
     d4 * 128 % 256 + d5 * 4 + d6 / 8]
  | [d0, d1, d2, d3, d4, d5, d6, d7] =>
    [d0 * 8 + d1 / 4, d1 * 64 % 256 + d2 * 2 + d3 / 16, d3 * 16 % 256 + d4 / 2,
     d4 * 128 % 256 + d5 * 4 + d6 / 8, d6 * 32 % 256 + d7]
  | _ => []

/-- Main loop of Go base32 `decode`.  Each full quantum consumes exactly 8
input characters, so `fuel = src.length` at the top-level call can never run
out; the `fuel = 0` branch is unreachable. -/
def goDecodeAux : Nat → List Char → Option (List Nat)
  | _, [] => some []
  | 0, _ :: _ => none
  | fuel + 1, c :: cs =>
    match readQuantum 8 0 [] (c :: cs) with
    | none => none
    | some (dbuf, true, _) => some (packQuantum dbuf)
    | some (dbuf, false, rest) =>
      (goDecodeAux fuel rest).map (fun tl => packQuantum dbuf ++ tl)

def goDecode (src : List Char) : Option (List Nat) :=
  goDecodeAux src.length src

/-- Go base32 `DecodeString` strips `\r` and `\n` before decoding. -/
def stripNewlines (s : List Char) : List Char :=
  s.filter (fun c => !(c = '\r' || c = '\n'))

def goDecodeString (s : List Char) : Option (List Nat) :=
  goDecode (stripNewlines s)

example : goDecodeString "nbuq0000".toList = some [104, 105] := by decide

example : goEncode [104, 105] = "nbuq0000".toList := by decide

example : goDecodeString "nbuq".toList = none := by decide

example : goDecode (goEncode [1, 2, 3, 4, 5, 6, 7]) = some [1, 2, 3, 4, 5, 6, 7] := by
  decide

/-! ### `strconv.Atoi` and domain parsing -/

def isDigitChar (c : Char) : Bool := decide ('0' ≤ c) && decide (c ≤ '9')

def digitsVal (ds : List Char) : Nat :=
  ds.foldl (fun a c => a * 10 + (c.toNat - 48)) 0

/-- Go `strconv.Atoi` on a 64-bit platform: optional sign, then a nonempty
run of decimal digits; a value outside the `int64` range is an `ErrRange`
error.  `none` models a non-nil error. -/
def atoi (s : List Char) : Option Int :=
  match s with
  | [] => none
  | c :: rest =>
    let neg : Bool := c = '-'
    let digits : List Char := if c = '-' || c = '+' then rest else s
    if digits.isEmpty then none
    else if digits.all isDigitChar then
      let v : Nat := digitsVal digits
      if neg then
        if v ≤ 2 ^ 63 then some (-(v : Int)) else none
      else
        if v ≤ 2 ^ 63 - 1 then some (v : Int) else none
    else none

/-- Go `strings.Split` with a one-character separator. -/
def splitGo (sep : Char) : List Char → List (List Char)
  | [] => [[]]
  | c :: rest =>
    if c = sep then [] :: splitGo sep rest
    else
      match splitGo sep rest with
      | [] => [[c]]
      | g :: gs => (c :: g) :: gs

structure fragment where
  id : List Char
  totalSize : Int
  offset : Int
  data : List Char
deriving DecidableEq, Repr

/-- `parseDomain` (tunnel.go:52-81): suffix check against `"." + topDomain`,
suffix trim, split on `.`, at least 4 labels, `Atoi` on labels 1 and 2, and
concatenation of labels 3.. into `data`.  `none` models the error returns. -/
def parseDomain (topDomain domain : List Char) : Option fragment :=
  if ('.' :: topDomain) <:+ domain then
    let payload := domain.take (domain.length - (topDomain.length + 1))
    let labels := splitGo '.' payload
    if labels.length < 4 then none
    else
      match atoi (labels.getD 1 []), atoi (labels.getD 2 []) with
      | some totalSize, some offset =>
          some ⟨labels.getD 0 [], totalSize, offset, (labels.drop 3).flatten⟩
      | _, _ => none
  else none

example :
    parseDomain "tunnel.example.com".toList "msg1.8.0.nbuq0000.tunnel.example.com".toList
      = some ⟨"msg1".toList, 8, 0, "nbuq0000".toList⟩ := by decide

example : parseDomain "t".toList "a.b.t".toList = none := by decide

example : parseDomain "t".toList "a.8.0.xy.zw.t".toList
    = some ⟨"a".toList, 8, 0, "xyzw".toList⟩ := by decide

/-! ### Fragment lists, assembly, the store -/

structure fragmentList where
  totalSize : Int
  fragments : List (Int × fragment)
  expiresAt : Int
deriving DecidableEq, Repr

/-- `copy(buf[off:], data)` on a Go byte slice: writes
`min (buf.length - off) data.length` bytes at `off`, never growing `buf`. -/
def copyBytes (buf : List Char) (off : Nat) (data : List Char) : List Char :=
  buf.take off ++ data.take (buf.length - off) ++ buf.drop (off + data.length)

def nulChar : Char := Char.ofNat 0

inductive CopyOut where
  | ok (buf : List Char)
  | err
  | panicked
deriving DecidableEq, Repr

/-- The fragment loop of `assemble` (tunnel.go:85-90): `offset >= totalSize`
is the error return; a negative offset makes `buf[f.offset:]` panic. -/
def assembleCopy (totalSize : Int) (buf : List Char) :
    List (Int × fragment) → CopyOut
  | [] => .ok buf
  | (_, f) :: rest =>
    if f.offset ≥ totalSize then .err
    else if f.offset < 0 then .panicked
    else assembleCopy totalSize (copyBytes buf f.offset.toNat f.data) rest

inductive AsmOut where
  | ok (msg : List Nat)
  | err
  | panicked
deriving DecidableEq, Repr

/-- `assemble` (tunnel.go:83-96): `make([]byte, totalSize)` (panics when
negative), the copy loop, then `decoder.DecodeString`. -/
def assembleGo (fl : fragmentList) : AsmOut :=
  if fl.totalSize < 0 then .panicked
  else
    match assembleCopy fl.totalSize
        (List.replicate fl.totalSize.toNat nulChar) fl.fragments with
    | .err => .err
    | .panicked => .panicked
    | .ok buf =>
      match goDecodeString buf with
      | none => .err
      | some dec => .ok dec

/-- The `map[int]fragment` write `fgList.fragments[fg.offset] = fg`:
replace at an existing key, else add. -/
def updateFrags : List (Int × fragment) → Int → fragment → List (Int × fragment)
  | [], k, f => [(k, f)]
  | (k', f') :: rest, k, f =>
    if k' = k then (k, f) :: rest else (k', f') :: updateFrags rest k f

def lookupFrag : List (Int × fragment) → Int → Option fragment
  | [], _ => none
  | (k', f') :: rest, k => if k' = k then some f' else lookupFrag rest k

/-- `map[string]*fragmentList`, keyed by transfer id. -/
abbrev Store : Type := List (List Char × fragmentList)

def emptyStore : Store := []

def lookupStore : Store → List Char → Option fragmentList
  | [], _ => none
  | (k, fl) :: rest, id => if k = id then some fl else lookupStore rest id

def updateStore : Store → List Char → fragmentList → Store
  | [], id, fl => [(id, fl)]
  | (k, fl') :: rest, id, fl =>
    if k = id then (id, fl) :: rest else (k, fl') :: updateStore rest id fl

/-- `delete(tun.fgLists, id)`. -/
def removeStore : Store → List Char → Store
  | [], _ => []
  | (k, fl) :: rest, id =>
    if k = id then removeStore rest id else (k, fl) :: removeStore rest id

def sumLens (frs : List (Int × fragment)) : Int :=
  frs.foldl (fun a p => a + (p.2.data.length : Int)) 0

inductive IngestOut where
  | quiet
  | emit (msg : List Nat)
  | panicked
deriving DecidableEq, Repr

/-- One iteration of the `listenDomains` loop body (tunnel.go:104-140) for a
received domain: parse, create-or-get the fragment list, overwrite
`totalSize`, store the fragment at its offset, refresh `expiresAt`, sum the
stored data lengths, and when the sum reaches `totalSize` attempt assembly,
emitting and deleting on success. -/
def ingestGo (topDomain : List Char) (expiration now : Int) (st : Store)
    (domain : List Char) : Store × IngestOut :=
  match parseDomain topDomain domain with
  | none => (st, .quiet)
  | some fg =>
    let fl0 : fragmentList := (lookupStore st fg.id).getD ⟨0, [], now + expiration⟩
    let fl1 : fragmentList :=
      ⟨fg.totalSize, updateFrags fl0.fragments fg.offset fg, now + expiration⟩
    let totalBytes : Int := sumLens fl1.fragments
    if totalBytes ≥ fl1.totalSize then
      match assembleGo fl1 with
      | .err => (updateStore st fg.id fl1, .quiet)
      | .panicked => (updateStore st fg.id fl1, .panicked)
      | .ok msg => (removeStore (updateStore st fg.id fl1) fg.id, .emit msg)
    else (updateStore st fg.id fl1, .quiet)

/-- Ingestion of a whole queue of domains at one instant `now`; `none` is a
panic of the ingestion goroutine, `some (st, msgs)` the final store and the
payloads emitted on the `Messages` channel, in order. -/
def runIngest (top : List Char) (exp now : Int) :
    Store → List (List Char) → Option (Store × List (List Nat))
  | st, [] => some (st, [])
  | st, d :: ds =>
    match ingestGo top exp now st d with
    | (st', .quiet) => runIngest top exp now st' ds
    | (st', .emit m) =>
      (runIngest top exp now st' ds).map (fun r => (r.1, m :: r.2))
    | (_, .panicked) => none

/-- One tick of `removeExpiredMessages` (tunnel.go:152-160): drop every entry
whose `expiresAt` is before `now`. -/
def sweepGo (now : Int) (st : Store) : Store :=
  st.filter (fun p => !decide (p.2.expiresAt < now))

inductive Event where
  | query (domain : List Char) (now : Int)
  | tick (now : Int)

/-- The two concurrent loops serialised by `fgListsLock`, as one step
relation on the store; `none` is a panic. -/
def stepEv (top : List Char) (exp : Int) (st : Store) :
    Event → Option (Store × Option (List Nat))
  | .query d now =>
    match ingestGo top exp now st d with
    | (st', .quiet) => some (st', none)
    | (st', .emit m) => some (st', some m)
    | (_, .panicked) => none
  | .tick now => some (sweepGo now st, none)

/-- Invariant of stores reachable by ingestion at one instant `now`: every
live fragment list is incomplete or fails assembly with an error (a complete,
assemblable list would have been emitted and removed in the same step), and
carries the expiry stamp `now + expiration`. -/
def invStore (exp now : Int) (st : Store) : Prop :=
  ∀ id fl, lookupStore st id = some fl →
    (sumLens fl.fragments < fl.totalSize ∨ assembleGo fl = .err) ∧
    fl.expiresAt = now + exp

/-! ### The query responder -/

def typeA : Nat := 1
def typeCNAME : Nat := 5
def classINET : Nat := 1

structure Question where
  name : List Char
  qtype : Nat
deriving DecidableEq, Repr

structure DnsMsg where
  question : List Question
deriving DecidableEq, Repr

structure RRHeader where
  name : List Char
  rrtype : Nat
  rclass : Nat
  ttl : Nat
deriving DecidableEq, Repr

structure CnameRR where
  hdr : RRHeader
  target : List Char
deriving DecidableEq, Repr

def sinkDomain : List Char := "blackhole-1.iana.org.".toList

/-- `ServeDNS` (tunnel.go:165-187): with no question nothing is written;
otherwise the first question's name is forwarded iff its type is `TypeA`,
and a reply with exactly one CNAME answer (TTL 0, original name) is written.
Result: (answer section written, domain forwarded to `tun.domains`). -/
def serveDNS (r : DnsMsg) : Option (List CnameRR) × Option (List Char) :=
  match r.question with
  | [] => (none, none)
  | q :: _ =>
    (some [⟨⟨q.name, typeCNAME, classINET, 0⟩, sinkDomain⟩],
     if q.qtype = typeA then some q.name else none)

example :
    runIngest "tunnel.example.com".toList 30 0 emptyStore
      ["msg1.8.0.nbuq0000.tunnel.example.com".toList]
      = some (emptyStore, [[104, 105]]) := by decide

example :
    runIngest "tunnel.example.com".toList 30 0 emptyStore
      ["msg2.8.4.0000.tunnel.example.com".toList,
       "msg2.8.0.nbuq.tunnel.example.com".toList]
      = some (emptyStore, [[104, 105]]) := by decide

example :
    runIngest "t".toList 30 0 emptyStore ["a.8.-1.bbbbbbbb.t".toList] = none := by
  decide

/-! ### The sender side of the wire sub-protocol

Modelled from the spec: the client (not part of this repository) encodes the
payload with the alphabet above, splits the encoded blob into chunks, and
wraps each chunk as `<id>.<totalSize>.<offset>.<data>.<topDomain>` with the
numbers in decimal. -/

def natToCharsAux : Nat → Nat → List Char → List Char
  | 0, _, acc => acc
  | _ + 1, 0, acc => acc
  | fuel + 1, n + 1, acc =>
    natToCharsAux fuel ((n + 1) / 10) (Char.ofNat (48 + (n + 1) % 10) :: acc)

/-- Decimal rendering of a natural number (the fuel argument only bounds the
digit count and never runs out). -/
def natToChars (n : Nat) : List Char :=
  if n = 0 then ['0'] else natToCharsAux n n []

/-- A fragment domain for the chunk `c = (offset, data)` of a transfer with
the given id and declared total size. -/
def mkDomain (top id : List Char) (total : Nat) (c : Nat × List Char) : List Char :=
  id ++ '.' :: (natToChars total ++ '.' :: (natToChars c.1 ++ '.' :: (c.2 ++ '.' :: top)))

/-- Splitting `blob` from position `off` into consecutive chunks of the given
sizes, each tagged with its starting offset. -/
def chunksFrom (blob : List Char) : Nat → List Nat → List (Nat × List Char)
  | _, [] => []
  | off, s :: ss => (off, (blob.drop off).take s) :: chunksFrom blob (off + s) ss

example : mkDomain "t".toList "m".toList 8 (0, "nbuq".toList) = "m.8.0.nbuq.t".toList := by
  decide

/-- The fragment that parsing the wrapped chunk `c` yields. -/
def mkFrag (id : List Char) (T : Nat) (c : Nat × List Char) : fragment :=
  ⟨id, (T : Int), (c.1 : Int), c.2⟩

/-- The offset-keyed fragment entries of a list of chunks, in insert order. -/
def fragsOf (id : List Char) (T : Nat) (l : List (Nat × List Char)) :
    List (Int × fragment) :=
  l.map (fun c => ((c.1 : Int), mkFrag id T c))

/-- The store of one in-progress transfer holding exactly the given chunks. -/
def storeOf (id : List Char) (T : Nat) (l : List (Nat × List Char)) (e : Int) : Store :=
  [(id, ⟨(T : Int), fragsOf id T l, e⟩)]

/-- The copy loop of `assemble` as a fold (the successful, guard-free path). -/
def foldCopy (frs : List (Int × fragment)) (buf : List Char) : List Char :=
  frs.foldl (fun b p => copyBytes b p.2.offset.toNat p.2.data) buf

/-! ### Basic store lemmas -/

theorem lookupStore_updateStore_self (st : Store) (id : List Char) (fl : fragmentList) :
    lookupStore (updateStore st id fl) id = some fl := by
  induction st with
  | nil => simp [updateStore, lookupStore]
  | cons p rest ih =>
    obtain ⟨k, fl'⟩ := p
    by_cases h : k = id
    · simp [updateStore, lookupStore, h]
    · simp [updateStore, lookupStore, h, ih]

theorem lookupStore_updateStore_other (st : Store) (id id' : List Char)
    (fl : fragmentList) (h : id' ≠ id) :
    lookupStore (updateStore st id fl) id' = lookupStore st id' := by
  induction st with
  | nil =>
    simp only [updateStore, lookupStore]
    rw [if_neg (fun hh => h hh.symm)]
  | cons p rest ih =>
    obtain ⟨k, fl'⟩ := p
    simp only [updateStore]
    by_cases hk : k = id
    · subst hk
      simp only [if_pos rfl, lookupStore]
      rw [if_neg (fun hh => h hh.symm), if_neg (fun hh => h hh.symm)]
    · simp only [if_neg hk, lookupStore]
      by_cases hk' : k = id'
      · simp [if_pos hk']
      · simp [if_neg hk', ih]

theorem lookupStore_removeStore_self (st : Store) (id : List Char) :
    lookupStore (removeStore st id) id = none := by
  induction st with
  | nil => rfl
  | cons p rest ih =>
    obtain ⟨k, fl'⟩ := p
    simp only [removeStore]
    by_cases h : k = id
    · simpa [if_pos h] using ih
    · simpa [if_neg h, lookupStore, h] using ih

theorem lookupStore_removeStore_other (st : Store) (id id' : List Char) (h : id' ≠ id) :
    lookupStore (removeStore st id) id' = lookupStore st id' := by
  induction st with
  | nil => rfl
  | cons p rest ih =>
    obtain ⟨k, fl'⟩ := p
    simp only [removeStore]
    by_cases hk : k = id
    · subst hk
      rw [if_pos rfl, ih]
      simp only [lookupStore]
      rw [if_neg (fun hh => h hh.symm)]
    · rw [if_neg hk]
      simp only [lookupStore]
      by_cases hk' : k = id'
      · simp [if_pos hk']
      · simp [if_neg hk', ih]

/-! ### Claim theorems: parsing, the responder, panics, truncation -/

/-- C2.  With `topDomain = "tunnel.example.com"`, ingesting the single query
name `"msg1.8.0.nbuq0000.tunnel.example.com"` emits the decoded payload
`"hi"` (bytes 0x68 0x69) exactly once and leaves the store without the
`"msg1"` entry (here: empty). -/
theorem claim_C2 (exp now : Int) :
    runIngest "tunnel.example.com".toList exp now emptyStore
      ["msg1.8.0.nbuq0000.tunnel.example.com".toList]
      = some (emptyStore, [[104, 105]]) := by
  rfl

/-- C3, counterexample.  The label `"-1"` does not parse as a non-negative
integer, yet `parseDomain` returns no error: Go's `strconv.Atoi` accepts
signed values, so the claim's "non-negative" reading of the validation is
false on the code. -/
theorem claim_C3_counterexample :
    parseDomain "t".toList "a.-1.0.x.t".toList
        = some ⟨"a".toList, -1, 0, "x".toList⟩ ∧ (-1 : Int) < 0 := by
  constructor
  · rfl
  · decide

/-- C3, amended.  `parseDomain` errors exactly when the query name does not
end with `"." + topDomain`, or the remainder has fewer than 4 labels, or
label 1 or label 2 does not parse as a (possibly signed, 64-bit) integer via
`strconv.Atoi`; and every query name on which `parseDomain` errors leaves the
store unchanged and emits nothing. -/
theorem claim_C3_amended (top dom : List Char) (exp now : Int) (st : Store) :
    (parseDomain top dom = none ↔
      (¬ (('.' :: top) <:+ dom) ∨
       (splitGo '.' (dom.take (dom.length - (top.length + 1)))).length < 4 ∨
       atoi ((splitGo '.' (dom.take (dom.length - (top.length + 1)))).getD 1 []) = none ∨
       atoi ((splitGo '.' (dom.take (dom.length - (top.length + 1)))).getD 2 []) = none)) ∧
    (parseDomain top dom = none → ingestGo top exp now st dom = (st, .quiet)) := by
  constructor
  · unfold parseDomain
    by_cases hs : ('.' :: top) <:+ dom
    · simp only [if_pos hs]
      by_cases hl : (splitGo '.' (dom.take (dom.length - (top.length + 1)))).length < 4
      · simp [hl, hs]
      · simp only [if_neg hl]
        cases h1 : atoi ((splitGo '.' (dom.take (dom.length - (top.length + 1)))).getD 1 []) <;>
          cases h2 : atoi ((splitGo '.' (dom.take (dom.length - (top.length + 1)))).getD 2 []) <;>
            simp [h1, h2, hs, hl]
    · simp [hs]
  · intro hnone
    unfold ingestGo
    rw [hnone]

/-- Witness for the amended C3 at a concrete malformed input. -/
theorem claim_C3_amended_witness :
    parseDomain "t".toList "a.b.t".toList = none ∧
    ingestGo "t".toList 30 0 emptyStore "a.b.t".toList = (emptyStore, .quiet) := by
  constructor
  · exact (claim_C3_amended "t".toList "a.b.t".toList 30 0 emptyStore).1.mpr
      (by decide)
  · exact (claim_C3_amended "t".toList "a.b.t".toList 30 0 emptyStore).2 (by decide)

/-- C6, counterexample.  A DNS request whose question section is empty gets
no response at all (`ServeDNS` returns before writing), so "for every DNS
request ... exactly one response is written" is false. -/
theorem claim_C6_counterexample : serveDNS ⟨[]⟩ = (none, none) := by
  rfl

/-- C6, amended.  For every DNS request with at least one question,
regardless of the question's record type, exactly one response is written,
containing exactly one answer record: a CNAME to the fixed sink domain with
TTL 0, named with the original question name; and the name is forwarded to
the ingestion queue iff the question type is `TypeA`. -/
theorem claim_C6_amended (r : DnsMsg) (q : Question) (rest : List Question)
    (h : r.question = q :: rest) :
    serveDNS r = (some [⟨⟨q.name, typeCNAME, classINET, 0⟩, sinkDomain⟩],
                  if q.qtype = typeA then some q.name else none) ∧
    ((serveDNS r).2 = some q.name ↔ q.qtype = typeA) := by
  obtain ⟨qs⟩ := r
  cases h
  constructor
  · rfl
  · by_cases ht : q.qtype = typeA <;> simp [serveDNS, ht]

theorem claim_C6_amended_witness :
    serveDNS ⟨[⟨"x.t".toList, typeA⟩]⟩
      = (some [⟨⟨"x.t".toList, typeCNAME, classINET, 0⟩, sinkDomain⟩],
         some "x.t".toList) := by
  exact (claim_C6_amended ⟨[⟨"x.t".toList, typeA⟩]⟩ ⟨"x.t".toList, typeA⟩ [] rfl).1

/-- C9 is a code bug: a fragment with a negative offset passes `parseDomain`
(Go's `Atoi` accepts signs) and passes the `offset >= totalSize` guard, and
the copy `buf[f.offset:]` then indexes outside the buffer: the ingestion
goroutine panics.  This evaluates the model at the failing input. -/
theorem claim_C9_bug (exp now : Int) :
    parseDomain "t".toList "a.8.-1.bbbbbbbb.t".toList
        = some ⟨"a".toList, 8, -1, "bbbbbbbb".toList⟩ ∧
    (ingestGo "t".toList exp now emptyStore "a.8.-1.bbbbbbbb.t".toList).2 = .panicked ∧
    runIngest "t".toList exp now emptyStore ["a.8.-1.bbbbbbbb.t".toList] = none := by
  refine ⟨rfl, rfl, rfl⟩

/-- C10.  A stored fragment with `0 ≤ offset < totalSize` but
`offset + len(data) > totalSize` produces no error: the copy stops at the
end of the `totalSize`-byte buffer, silently dropping the excess trailing
bytes, and decoding proceeds on the truncated buffer. -/
theorem claim_C10 (T off : Nat) (data id' : List Char) (e : Int)
    (h1 : off < T) (h2 : T < off + data.length) :
    assembleCopy (T : Int) (List.replicate T nulChar)
        [((off : Int), ⟨id', (T : Int), (off : Int), data⟩)]
      = .ok (List.replicate off nulChar ++ data.take (T - off)) ∧
    assembleGo ⟨(T : Int), [((off : Int), ⟨id', (T : Int), (off : Int), data⟩)], e⟩
      = (match goDecodeString (List.replicate off nulChar ++ data.take (T - off)) with
         | none => .err
         | some dec => .ok dec) := by
  have hoff : ¬ ((off : Int) ≥ (T : Int)) := by
    simp only [ge_iff_le, not_le]
    exact_mod_cast h1
  have hneg : ¬ ((off : Int) < 0) := not_lt.mpr (Int.natCast_nonneg off)
  have hcopy : copyBytes (List.replicate T nulChar) off data
      = List.replicate off nulChar ++ data.take (T - off) := by
    unfold copyBytes
    rw [List.take_replicate, List.drop_replicate, List.length_replicate]
    have hmin : min off T = off := Nat.min_eq_left h1.le
    have hz : T - (off + data.length) = 0 := by omega
    rw [hmin, hz]
    simp
  have hcc : assembleCopy (T : Int) (List.replicate T nulChar)
      [((off : Int), ⟨id', (T : Int), (off : Int), data⟩)]
      = .ok (List.replicate off nulChar ++ data.take (T - off)) := by
    unfold assembleCopy
    rw [if_neg hoff, if_neg hneg]
    simp only [Int.toNat_natCast]
    rw [hcopy]
    rfl
  refine ⟨hcc, ?_⟩
  unfold assembleGo
  have hT : ¬ ((T : Int) < 0) := not_lt.mpr (Int.natCast_nonneg T)
  rw [if_neg hT]
  simp only [Int.toNat_natCast]
  rw [hcc]

/-! ### Claim theorems: completion predicate, assembly failure, expiration -/

/-- Evaluation of one ingest step once the domain has parsed: the updated
fragment list `fl1` carries the last fragment's declared `totalSize`, and the
byte-length sum against it decides whether assembly is attempted. -/
theorem ingestGo_parsed (top : List Char) (exp now : Int) (st : Store) (dom : List Char)
    (fg : fragment) (fl1 : fragmentList)
    (hp : parseDomain top dom = some fg)
    (h1 : fl1 = ⟨fg.totalSize,
        updateFrags ((lookupStore st fg.id).getD ⟨0, [], now + exp⟩).fragments fg.offset fg,
        now + exp⟩) :
    ingestGo top exp now st dom =
      if fl1.totalSize ≤ sumLens fl1.fragments then
        match assembleGo fl1 with
        | .err => (updateStore st fg.id fl1, .quiet)
        | .panicked => (updateStore st fg.id fl1, .panicked)
        | .ok msg => (removeStore (updateStore st fg.id fl1) fg.id, .emit msg)
      else (updateStore st fg.id fl1, .quiet) := by
  subst h1
  unfold ingestGo
  rw [hp]

theorem ingest_not_ready (top : List Char) (exp now : Int) (st : Store) (dom : List Char)
    (fg : fragment) (fl1 : fragmentList)
    (hp : parseDomain top dom = some fg)
    (h1 : fl1 = ⟨fg.totalSize,
        updateFrags ((lookupStore st fg.id).getD ⟨0, [], now + exp⟩).fragments fg.offset fg,
        now + exp⟩)
    (h : sumLens fl1.fragments < fl1.totalSize) :
    ingestGo top exp now st dom = (updateStore st fg.id fl1, .quiet) := by
  rw [ingestGo_parsed top exp now st dom fg fl1 hp h1, if_neg (not_le.mpr h)]

theorem ingest_complete_ok (top : List Char) (exp now : Int) (st : Store) (dom : List Char)
    (fg : fragment) (fl1 : fragmentList) (m : List Nat)
    (hp : parseDomain top dom = some fg)
    (h1 : fl1 = ⟨fg.totalSize,
        updateFrags ((lookupStore st fg.id).getD ⟨0, [], now + exp⟩).fragments fg.offset fg,
        now + exp⟩)
    (h : fl1.totalSize ≤ sumLens fl1.fragments)
    (ha : assembleGo fl1 = .ok m) :
    ingestGo top exp now st dom
      = (removeStore (updateStore st fg.id fl1) fg.id, .emit m) := by
  rw [ingestGo_parsed top exp now st dom fg fl1 hp h1, if_pos h, ha]

theorem ingest_complete_err (top : List Char) (exp now : Int) (st : Store) (dom : List Char)
    (fg : fragment) (fl1 : fragmentList)
    (hp : parseDomain top dom = some fg)
    (h1 : fl1 = ⟨fg.totalSize,
        updateFrags ((lookupStore st fg.id).getD ⟨0, [], now + exp⟩).fragments fg.offset fg,
        now + exp⟩)
    (h : fl1.totalSize ≤ sumLens fl1.fragments)
    (ha : assembleGo fl1 = .err) :
    ingestGo top exp now st dom = (updateStore st fg.id fl1, .quiet) := by
  rw [ingestGo_parsed top exp now st dom fg fl1 hp h1, if_pos h, ha]

theorem ingest_complete_panic (top : List Char) (exp now : Int) (st : Store) (dom : List Char)
    (fg : fragment) (fl1 : fragmentList)
    (hp : parseDomain top dom = some fg)
    (h1 : fl1 = ⟨fg.totalSize,
        updateFrags ((lookupStore st fg.id).getD ⟨0, [], now + exp⟩).fragments fg.offset fg,
        now + exp⟩)
    (h : fl1.totalSize ≤ sumLens fl1.fragments)
    (ha : assembleGo fl1 = .panicked) :
    ingestGo top exp now st dom = (updateStore st fg.id fl1, .panicked) := by
  rw [ingestGo_parsed top exp now st dom fg fl1 hp h1, if_pos h, ha]

/-- C4.  After a fragment is ingested, assembly and emission are attempted
exactly when the byte-length sum of the stored fragments reaches the
fragment list's `totalSize` (the last fragment's declared value, visible as
`fl1.totalSize = fg.totalSize`); the sum comparison is the sole trigger, and
on successful assembly the entry is removed in the same step that emits. -/
theorem claim_C4 (top : List Char) (exp now : Int) (st : Store) (dom : List Char)
    (fg : fragment) (fl1 : fragmentList)
    (hp : parseDomain top dom = some fg)
    (h1 : fl1 = ⟨fg.totalSize,
        updateFrags ((lookupStore st fg.id).getD ⟨0, [], now + exp⟩).fragments fg.offset fg,
        now + exp⟩) :
    (∀ m, (ingestGo top exp now st dom).2 = .emit m ↔
        (fl1.totalSize ≤ sumLens fl1.fragments ∧ assembleGo fl1 = .ok m)) ∧
    (sumLens fl1.fragments < fl1.totalSize →
        ingestGo top exp now st dom = (updateStore st fg.id fl1, .quiet)) ∧
    (∀ m, fl1.totalSize ≤ sumLens fl1.fragments → assembleGo fl1 = .ok m →
        ingestGo top exp now st dom
          = (removeStore (updateStore st fg.id fl1) fg.id, .emit m)) := by
  by_cases hsum : fl1.totalSize ≤ sumLens fl1.fragments
  · cases ha : assembleGo fl1 with
    | ok m' =>
      have hstep := ingest_complete_ok top exp now st dom fg fl1 m' hp h1 hsum ha
      refine ⟨?_, fun hlt => absurd hsum (not_le.mpr hlt), fun m _ hok => ?_⟩
      · intro m
        rw [hstep]
        constructor
        · intro hm
          injection hm with hm'
          subst hm'
          exact ⟨hsum, rfl⟩
        · rintro ⟨-, hok⟩
          injection hok with hh
          rw [hh]
      · injection hok with hh
        subst hh
        exact hstep
    | err =>
      have hstep := ingest_complete_err top exp now st dom fg fl1 hp h1 hsum ha
      refine ⟨?_, fun hlt => absurd hsum (not_le.mpr hlt), fun m _ hok => ?_⟩
      · intro m
        rw [hstep]
        constructor
        · intro hm
          exact IngestOut.noConfusion hm
        · rintro ⟨-, hok⟩
          exact AsmOut.noConfusion hok
      · exact AsmOut.noConfusion hok
    | panicked =>
      have hstep := ingest_complete_panic top exp now st dom fg fl1 hp h1 hsum ha
      refine ⟨?_, fun hlt => absurd hsum (not_le.mpr hlt), fun m _ hok => ?_⟩
      · intro m
        rw [hstep]
        constructor
        · intro hm
          exact IngestOut.noConfusion hm
        · rintro ⟨-, hok⟩
          exact AsmOut.noConfusion hok
      · exact AsmOut.noConfusion hok
  · have hstep := ingest_not_ready top exp now st dom fg fl1 hp h1 (not_le.mp hsum)
    refine ⟨?_, fun _ => hstep, fun m hle _ => absurd hle hsum⟩
    intro m
    rw [hstep]
    constructor
    · intro hm
      exact IngestOut.noConfusion hm
    · rintro ⟨hle, -⟩
      exact absurd hle hsum

/-- Witness for C4 at the single-fragment transfer of C2. -/
theorem claim_C4_witness :
    ingestGo "t".toList 0 0 emptyStore "m.8.0.nbuq0000.t".toList
      = (emptyStore, .emit [104, 105]) := by
  have h := (claim_C4 "t".toList 0 0 emptyStore "m.8.0.nbuq0000.t".toList
      ⟨"m".toList, 8, 0, "nbuq0000".toList⟩ _ (by decide) rfl).2.2
      [104, 105] (by decide) (by decide)
  rw [h]
  decide

/-- C7.  When the completion predicate holds but `assemble` fails with an
error, nothing is emitted, the (just-updated) fragment list stays in the map
under its id, and every other transfer is untouched; the failure is not a
panic. -/
theorem claim_C7 (top : List Char) (exp now : Int) (st : Store) (dom : List Char)
    (fg : fragment) (fl1 : fragmentList)
    (hp : parseDomain top dom = some fg)
    (h1 : fl1 = ⟨fg.totalSize,
        updateFrags ((lookupStore st fg.id).getD ⟨0, [], now + exp⟩).fragments fg.offset fg,
        now + exp⟩)
    (hsum : fl1.totalSize ≤ sumLens fl1.fragments)
    (herr : assembleGo fl1 = .err) :
    ingestGo top exp now st dom = (updateStore st fg.id fl1, .quiet) ∧
    lookupStore (updateStore st fg.id fl1) fg.id = some fl1 ∧
    (∀ id', id' ≠ fg.id →
        lookupStore (updateStore st fg.id fl1) id' = lookupStore st id') := by
  exact ⟨ingest_complete_err top exp now st dom fg fl1 hp h1 hsum herr,
    lookupStore_updateStore_self st fg.id fl1,
    fun id' h => lookupStore_updateStore_other st fg.id id' fl1 h⟩

/-- Witness for C7: a single fragment whose offset equals `totalSize`, so the
sum check passes but `assemble` reports `OffsetOutOfRange`. -/
theorem claim_C7_witness :
    ingestGo "t".toList 0 0 emptyStore "a.4.4.cccc.t".toList
      = (updateStore emptyStore "a".toList
          ⟨4, updateFrags [] 4 ⟨"a".toList, 4, 4, "cccc".toList⟩, 0⟩, .quiet) ∧
    lookupStore (ingestGo "t".toList 0 0 emptyStore "a.4.4.cccc.t".toList).1 "a".toList
      = some ⟨4, [(4, ⟨"a".toList, 4, 4, "cccc".toList⟩)], 0⟩ := by
  have h := claim_C7 "t".toList 0 0 emptyStore "a.4.4.cccc.t".toList
      ⟨"a".toList, 4, 4, "cccc".toList⟩ _ (by decide) rfl (by decide) (by decide)
  refine ⟨h.1, ?_⟩
  rw [h.1]
  decide

theorem lookupStore_eq_none_of_not_mem (st : Store) (id : List Char)
    (h : id ∉ st.map Prod.fst) : lookupStore st id = none := by
  induction st with
  | nil => rfl
  | cons p rest ih =>
    obtain ⟨k, fl'⟩ := p
    simp only [List.map_cons, List.mem_cons, not_or] at h
    simp only [lookupStore]
    rw [if_neg (fun hh => h.1 hh.symm)]
    exact ih h.2

theorem sweepGo_keys_subset (now' : Int) (st : Store) :
    ((sweepGo now' st).map Prod.fst) ⊆ st.map Prod.fst :=
  ((List.filter_sublist st).map Prod.fst).subset

/-- C8.  The sweep removes exactly the entries whose `expiresAt` is before
the tick's time and emits nothing; every quiet ingest leaves the fragment
list of the parsed id with `expiresAt = now + expiration`; and an entry whose
`expiresAt` has passed is absent after the sweep. -/
theorem claim_C8 (now' exp now : Int) (st : Store) (top dom : List Char)
    (id : List Char) (fl : fragmentList) :
    (∀ p : List Char × fragmentList,
        p ∈ sweepGo now' st ↔ p ∈ st ∧ ¬ p.2.expiresAt < now') ∧
    (stepEv top exp st (.tick now') = some (sweepGo now' st, none)) ∧
    (∀ fg : fragment, parseDomain top dom = some fg →
        (ingestGo top exp now st dom).2 = .quiet →
        ∃ fl', lookupStore (ingestGo top exp now st dom).1 fg.id = some fl' ∧
          fl'.expiresAt = now + exp) ∧
    ((st.map Prod.fst).Nodup → lookupStore st id = some fl → fl.expiresAt < now' →
        lookupStore (sweepGo now' st) id = none) := by
  refine ⟨?_, rfl, ?_, ?_⟩
  · intro p
    simp [sweepGo, List.mem_filter]
  · intro fg hp hq
    set fl1 : fragmentList := ⟨fg.totalSize,
        updateFrags ((lookupStore st fg.id).getD ⟨0, [], now + exp⟩).fragments fg.offset fg,
        now + exp⟩ with hfl1
    by_cases hsum : fl1.totalSize ≤ sumLens fl1.fragments
    · cases ha : assembleGo fl1 with
      | ok m =>
        rw [ingest_complete_ok top exp now st dom fg fl1 m hp hfl1 hsum ha] at hq
        exact IngestOut.noConfusion hq
      | err =>
        rw [ingest_complete_err top exp now st dom fg fl1 hp hfl1 hsum ha]
        exact ⟨fl1, lookupStore_updateStore_self st fg.id fl1, rfl⟩
      | panicked =>
        rw [ingest_complete_panic top exp now st dom fg fl1 hp hfl1 hsum ha] at hq
        exact IngestOut.noConfusion hq
    · rw [ingest_not_ready top exp now st dom fg fl1 hp hfl1 (not_le.mp hsum)]
      exact ⟨fl1, lookupStore_updateStore_self st fg.id fl1, rfl⟩
  · intro hnd hlk hexp
    induction st with
    | nil => cases hlk
    | cons p rest ih =>
      obtain ⟨k, fl'⟩ := p
      simp only [List.map_cons, List.nodup_cons] at hnd
      simp only [lookupStore] at hlk
      by_cases hk : k = id
      · rw [if_pos hk] at hlk
        cases hlk
        subst hk
        simp only [sweepGo, List.filter_cons]
        rw [show (!decide (fl.expiresAt < now')) = false by simp [hexp]]
        simp only [Bool.false_eq_true, if_false]
        exact lookupStore_eq_none_of_not_mem _ _
          (fun hmem => hnd.1 (sweepGo_keys_subset now' rest hmem))
      · rw [if_neg hk] at hlk
        have htail := ih hnd.2 hlk
        simp only [sweepGo, List.filter_cons]
        cases hkeep : (!decide (fl'.expiresAt < now'))
        · simpa [sweepGo] using htail
        · simp only [if_pos rfl]
          simp only [lookupStore]
          rw [if_neg hk]
          simpa [sweepGo] using htail

/-- Witness for C8: a store with one entry that expired at time 8 is emptied
of it by a sweep at time 10. -/
theorem claim_C8_witness :
    lookupStore (sweepGo 10 [("m".toList, ⟨8, [], 8⟩)]) "m".toList = none := by
  exact (claim_C8 10 0 0 [("m".toList, ⟨8, [], 8⟩)] [] [] "m".toList ⟨8, [], 8⟩).2.2.2
    (by decide) (by decide) (by decide)

/-! ### Decimal rendering round-trips through `Atoi` -/

theorem natToCharsAux_elim (n : Nat) : ∀ (fuel : Nat) (acc : List Char), n ≤ fuel →
    natToCharsAux fuel n acc = natToCharsAux n n [] ++ acc := by
  induction n using Nat.strong_induction_on with
  | _ n ih =>
    intro fuel acc hfu
    cases n with
    | zero => cases fuel <;> rfl
    | succ m =>
      cases fuel with
      | zero => omega
      | succ f =>
        have hq : (m + 1) / 10 < m + 1 := Nat.div_lt_self (Nat.succ_pos m) (by norm_num)
        have hq1 : (m + 1) / 10 ≤ f := by omega
        have hq2 : (m + 1) / 10 ≤ m := by omega
        simp only [natToCharsAux]
        rw [ih ((m + 1) / 10) hq f _ hq1, ih ((m + 1) / 10) hq m _ hq2,
          List.append_assoc]
        rfl

theorem natToCharsAux_all_digits (n : Nat) :
    ∀ c ∈ natToCharsAux n n [], isDigitChar c = true := by
  induction n using Nat.strong_induction_on with
  | _ n ih =>
    intro c hc
    cases n with
    | zero => cases hc
    | succ m =>
      have hq : (m + 1) / 10 < m + 1 := Nat.div_lt_self (Nat.succ_pos m) (by norm_num)
      have hq2 : (m + 1) / 10 ≤ m := by omega
      rw [show natToCharsAux (m + 1) (m + 1) []
            = natToCharsAux m ((m + 1) / 10) [Char.ofNat (48 + (m + 1) % 10)] from rfl,
        natToCharsAux_elim ((m + 1) / 10) m _ hq2] at hc
      rcases List.mem_append.mp hc with h | h
      · exact ih ((m + 1) / 10) hq c h
      · have hr : (m + 1) % 10 < 10 := Nat.mod_lt _ (by norm_num)
        rw [List.mem_singleton.mp h]
        set r := (m + 1) % 10 with hrdef
        clear_value r
        interval_cases r <;> decide

theorem digitsVal_natToCharsAux (n : Nat) : digitsVal (natToCharsAux n n []) = n := by
  induction n using Nat.strong_induction_on with
  | _ n ih =>
    cases n with
    | zero => rfl
    | succ m =>
      have hq : (m + 1) / 10 < m + 1 := Nat.div_lt_self (Nat.succ_pos m) (by norm_num)
      have hq2 : (m + 1) / 10 ≤ m := by omega
      rw [show natToCharsAux (m + 1) (m + 1) []
            = natToCharsAux m ((m + 1) / 10) [Char.ofNat (48 + (m + 1) % 10)] from rfl,
        natToCharsAux_elim ((m + 1) / 10) m _ hq2]
      have hr : (m + 1) % 10 < 10 := Nat.mod_lt _ (by norm_num)
      have htn : (Char.ofNat (48 + (m + 1) % 10)).toNat = 48 + (m + 1) % 10 := by
        set r := (m + 1) % 10 with hrdef
        clear_value r
        interval_cases r <;> decide
      simp only [digitsVal, List.foldl_append, List.foldl_cons, List.foldl_nil] at *
      rw [htn, ih ((m + 1) / 10) hq]
      omega

theorem natToChars_all_digits (n : Nat) :
    ∀ c ∈ natToChars n, isDigitChar c = true := by
  intro c hc
  by_cases h0 : n = 0
  · subst h0
    rw [show natToChars 0 = ['0'] from rfl] at hc
    rw [List.mem_singleton.mp hc]
    decide
  · rw [natToChars, if_neg h0] at hc
    exact natToCharsAux_all_digits n c hc

theorem digit_not_special (c : Char) (h : isDigitChar c = true) :
    c ≠ '-' ∧ c ≠ '+' ∧ c ≠ '.' := by
  refine ⟨?_, ?_, ?_⟩
  · rintro rfl
    exact absurd h (by decide)
  · rintro rfl
    exact absurd h (by decide)
  · rintro rfl
    exact absurd h (by decide)

theorem atoi_natToChars (n : Nat) (h : n < 2 ^ 63) :
    atoi (natToChars n) = some (n : Int) := by
  by_cases h0 : n = 0
  · subst h0
    rfl
  · obtain ⟨m, rfl⟩ : ∃ m, n = m + 1 := ⟨n - 1, by omega⟩
    have hform : natToChars (m + 1) = natToCharsAux (m + 1) (m + 1) [] := by
      rw [natToChars, if_neg h0]
    have hq2 : (m + 1) / 10 ≤ m := by
      have := Nat.div_lt_self (Nat.succ_pos m) (show 1 < 10 by norm_num)
      omega
    have hsplit : natToCharsAux (m + 1) (m + 1) []
        = natToCharsAux ((m + 1) / 10) ((m + 1) / 10) []
          ++ [Char.ofNat (48 + (m + 1) % 10)] := by
      rw [show natToCharsAux (m + 1) (m + 1) []
            = natToCharsAux m ((m + 1) / 10) [Char.ofNat (48 + (m + 1) % 10)] from rfl,
        natToCharsAux_elim ((m + 1) / 10) m _ hq2]
    have hnil : natToCharsAux (m + 1) (m + 1) [] ≠ [] := by
      rw [hsplit]
      simp
    obtain ⟨c, cs, hcc⟩ := List.exists_cons_of_ne_nil hnil
    have hdig : ∀ x ∈ (c :: cs), isDigitChar x = true := by
      rw [← hcc]
      exact natToCharsAux_all_digits (m + 1)
    have hc := hdig c (List.mem_cons_self c cs)
    obtain ⟨hcm, hcp, -⟩ := digit_not_special c hc
    have hval : digitsVal (c :: cs) = m + 1 := by
      rw [← hcc]
      exact digitsVal_natToCharsAux (m + 1)
    rw [hform, hcc]
    simp only [atoi]
    rw [show (decide (c = '-') || decide (c = '+')) = false by
      simp [hcm, hcp]]
    simp only [Bool.false_eq_true, if_false, List.isEmpty_cons]
    rw [show ((c :: cs).all isDigitChar) = true from List.all_eq_true.mpr hdig]
    simp only [if_true]
    rw [show (decide (c = '-')) = false by simp [hcm]]
    simp only [Bool.false_eq_true, if_false]
    rw [hval, if_pos (by omega : m + 1 ≤ 2 ^ 63 - 1)]

/-! ### `splitGo` on separator-free pieces -/

theorem splitGo_no_sep (sep : Char) (a : List Char) (h : sep ∉ a) :
    splitGo sep a = [a] := by
  induction a with
  | nil => rfl
  | cons c a' ih =>
    simp only [List.mem_cons, not_or] at h
    simp only [splitGo]
    rw [if_neg (fun hh => h.1 hh.symm), ih h.2]

theorem splitGo_append_sep (sep : Char) (a rest : List Char) (h : sep ∉ a) :
    splitGo sep (a ++ sep :: rest) = a :: splitGo sep rest := by
  induction a with
  | nil =>
    simp [splitGo]
  | cons c a' ih =>
    simp only [List.mem_cons, not_or] at h
    simp only [List.cons_append, splitGo, List.append_eq]
    rw [if_neg (fun hh => h.1 hh.symm), ih h.2]

/-- Parsing a constructed fragment domain recovers exactly the intended
fragment, provided the id and the data carry no dot and the numbers fit a
64-bit int. -/
theorem parseDomain_mkDomain (top id : List Char) (total o : Nat) (d : List Char)
    (hid : '.' ∉ id) (hd : '.' ∉ d)
    (ht : total < 2 ^ 63) (ho : o < 2 ^ 63) :
    parseDomain top (mkDomain top id total (o, d))
      = some ⟨id, (total : Int), (o : Int), d⟩ := by
  have hnT : '.' ∉ natToChars total := fun hmem =>
    (digit_not_special '.' (natToChars_all_digits total '.' hmem)).2.2 rfl
  have hnO : '.' ∉ natToChars o := fun hmem =>
    (digit_not_special '.' (natToChars_all_digits o '.' hmem)).2.2 rfl
  have hassoc : mkDomain top id total (o, d)
      = (id ++ '.' :: (natToChars total ++ '.' :: (natToChars o ++ '.' :: d)))
        ++ ('.' :: top) := by
    simp [mkDomain, List.append_assoc]
  set pre : List Char :=
    id ++ '.' :: (natToChars total ++ '.' :: (natToChars o ++ '.' :: d)) with hpre
  have hsuf : ('.' :: top) <:+ pre ++ ('.' :: top) := List.suffix_append pre ('.' :: top)
  have hlen : (pre ++ ('.' :: top)).length - (top.length + 1) = pre.length := by
    simp
  have htake : (pre ++ ('.' :: top)).take ((pre ++ ('.' :: top)).length - (top.length + 1))
      = pre := by
    rw [hlen]
    exact List.take_left pre ('.' :: top)
  have hlabels : splitGo '.' pre
      = [id, natToChars total, natToChars o, d] := by
    rw [hpre, splitGo_append_sep '.' id _ hid, splitGo_append_sep '.' (natToChars total) _ hnT,
      splitGo_append_sep '.' (natToChars o) _ hnO, splitGo_no_sep '.' d hd]
  rw [hassoc]
  unfold parseDomain
  rw [if_pos hsuf]
  simp only [htake, hlabels]
  rw [if_neg (by norm_num)]
  simp only [List.getD_cons_succ, List.getD_cons_zero]
  rw [atoi_natToChars total ht, atoi_natToChars o ho]
  simp

example :
    parseDomain "t".toList (mkDomain "t".toList "m".toList 8 (4, "0000".toList))
      = some ⟨"m".toList, 8, 4, "0000".toList⟩ := by
  exact parseDomain_mkDomain "t".toList "m".toList 8 4 "0000".toList
    (by decide) (by decide) (by norm_num) (by norm_num)

/-! ### The base32 round trip -/

theorem decodeChar_encChar : ∀ v, v < 32 → decodeChar (encChar v) = some v := by
  decide

theorem encChar_ne_pad (v : Nat) : encChar v ≠ '0' := by
  have h : v % 32 < 32 := Nat.mod_lt _ (by norm_num)
  have hall : ∀ w, w < 32 → alphabetChars.getD w ' ' ≠ '0' := by decide
  exact hall (v % 32) h

theorem encChar_mem (v : Nat) : encChar v ∈ alphabetChars := by
  have h : v % 32 < 32 := Nat.mod_lt _ (by norm_num)
  have hall : ∀ w, w < 32 → alphabetChars.getD w ' ' ∈ alphabetChars := by decide
  exact hall (v % 32) h

theorem readQuantum_cons (fuel j : Nat) (acc : List Nat) (c : Char) (rest : List Char)
    (v : Nat) (hc : decodeChar c = some v) (hpad : c ≠ '0') :
    readQuantum (fuel + 1) j acc (c :: rest)
      = readQuantum fuel (j + 1) (acc ++ [v]) rest := by
  simp only [readQuantum]
  rw [if_neg (by rintro ⟨h1, -⟩; exact hpad h1), hc]

theorem readQuantum_valid_seg (vs : List Nat) (hv : ∀ v ∈ vs, v < 32) :
    ∀ (fuel j : Nat) (acc : List Nat) (rest : List Char), vs.length ≤ fuel →
    readQuantum fuel j acc (vs.map encChar ++ rest)
      = readQuantum (fuel - vs.length) (j + vs.length) (acc ++ vs) rest := by
  induction vs with
  | nil =>
    intro fuel j acc rest _
    simp
  | cons v vs' ih =>
    intro fuel j acc rest hfu
    cases fuel with
    | zero => simp at hfu
    | succ f =>
      have hvhead : v < 32 := hv v (List.mem_cons_self v vs')
      have hvtail : ∀ w ∈ vs', w < 32 := fun w hw => hv w (List.mem_cons_of_mem v hw)
      simp only [List.map_cons, List.cons_append]
      rw [readQuantum_cons f j acc (encChar v) _ v (decodeChar_encChar v hvhead)
        (encChar_ne_pad v)]
      rw [ih hvtail f (j + 1) (acc ++ [v]) rest (by simpa using hfu)]
      have e1 : j + 1 + vs'.length = j + (vs'.length + 1) := by omega
      have e2 : (acc ++ [v]) ++ vs' = acc ++ v :: vs' := by simp
      rw [e1, e2]
      simp only [List.length_cons, Nat.succ_sub_succ]

theorem readQuantum_pad (d : Nat) (vs : List Nat) (hd : d = 2 ∨ d = 4 ∨ d = 5 ∨ d = 7) :
    readQuantum (8 - d) d vs (List.replicate (8 - d) '0')
      = some (vs, true, List.replicate (7 - d) '0') := by
  rcases hd with rfl | rfl | rfl | rfl <;> rfl

/-- Express one step of the decode loop through the result of its quantum
read. -/
theorem goDecodeAux_read (fuel : Nat) (src : List Char) (h : src ≠ [])
    (dbuf : List Nat) (stop : Bool) (rest : List Char)
    (hr : readQuantum 8 0 [] src = some (dbuf, stop, rest)) :
    goDecodeAux (fuel + 1) src
      = if stop then some (packQuantum dbuf)
        else (goDecodeAux fuel rest).map (fun tl => packQuantum dbuf ++ tl) := by
  cases src with
  | nil => exact absurd rfl h
  | cons c cs =>
    simp only [goDecodeAux]
    rw [hr]
    cases stop <;> rfl

theorem pack_enc_1 (x0 : Nat) (h0 : x0 < 256) :
    packQuantum [x0 / 8, x0 % 8 * 4] = [x0] := by
  simp only [packQuantum, List.cons.injEq, and_true]
  omega

theorem pack_enc_2 (x0 x1 : Nat) (h0 : x0 < 256) (h1 : x1 < 256) :
    packQuantum [x0 / 8, x0 % 8 * 4 + x1 / 64, x1 / 2 % 32, x1 % 2 * 16]
      = [x0, x1] := by
  simp only [packQuantum, List.cons.injEq, and_true]
  omega

theorem pack_enc_3 (x0 x1 x2 : Nat) (h0 : x0 < 256) (h1 : x1 < 256) (h2 : x2 < 256) :
    packQuantum [x0 / 8, x0 % 8 * 4 + x1 / 64, x1 / 2 % 32,
      x1 % 2 * 16 + x2 / 16, x2 % 16 * 2] = [x0, x1, x2] := by
  simp only [packQuantum, List.cons.injEq, and_true]
  omega

theorem pack_enc_4 (x0 x1 x2 x3 : Nat)
    (h0 : x0 < 256) (h1 : x1 < 256) (h2 : x2 < 256) (h3 : x3 < 256) :
    packQuantum [x0 / 8, x0 % 8 * 4 + x1 / 64, x1 / 2 % 32,
      x1 % 2 * 16 + x2 / 16, x2 % 16 * 2 + x3 / 128, x3 / 4 % 32, x3 % 4 * 8]
      = [x0, x1, x2, x3] := by
  simp only [packQuantum, List.cons.injEq, and_true]
  omega

theorem pack_enc_5 (x0 x1 x2 x3 x4 : Nat)
    (h0 : x0 < 256) (h1 : x1 < 256) (h2 : x2 < 256) (h3 : x3 < 256) (h4 : x4 < 256) :
    packQuantum [x0 / 8, x0 % 8 * 4 + x1 / 64, x1 / 2 % 32,
      x1 % 2 * 16 + x2 / 16, x2 % 16 * 2 + x3 / 128, x3 / 4 % 32,
      x3 % 4 * 8 + x4 / 32, x4 % 32] = [x0, x1, x2, x3, x4] := by
  simp only [packQuantum, List.cons.injEq, and_true]
  omega

theorem length_goEncode_aux (n : Nat) : ∀ P : List Nat, P.length ≤ n →
    (goEncode P).length = 8 * ((P.length + 4) / 5) := by
  induction n with
  | zero =>
    intro P hlen
    have : P = [] := List.eq_nil_of_length_eq_zero (by omega)
    subst this
    rfl
  | succ n ih =>
    intro P hlen
    rcases P with _ | ⟨x0, _ | ⟨x1, _ | ⟨x2, _ | ⟨x3, _ | ⟨x4, rest⟩⟩⟩⟩⟩
    · rfl
    · simp [goEncode, encGroup]
    · simp [goEncode, encGroup]
    · simp [goEncode, encGroup]
    · simp [goEncode, encGroup]
    · have hrest : rest.length ≤ n := by
        simp only [List.length_cons] at hlen
        omega
      simp only [goEncode, encGroup, List.length_append, List.length_map,
        List.length_cons, ih rest hrest]
      simp only [List.length_nil]
      omega

theorem length_goEncode (P : List Nat) :
    (goEncode P).length = 8 * ((P.length + 4) / 5) :=
  length_goEncode_aux P.length P le_rfl

theorem goDecodeAux_goEncode_aux (n : Nat) :
    ∀ (P : List Nat) (fuel : Nat), P.length ≤ n → (∀ b ∈ P, b < 256) →
    (P.length + 4) / 5 ≤ fuel → goDecodeAux fuel (goEncode P) = some P := by
  induction n with
  | zero =>
    intro P fuel hlen _ _
    have : P = [] := List.eq_nil_of_length_eq_zero (by omega)
    subst this
    simp [goEncode, goDecodeAux]
  | succ n ih =>
    intro P fuel hlen hb hf
    rcases P with _ | ⟨x0, _ | ⟨x1, _ | ⟨x2, _ | ⟨x3, _ | ⟨x4, rest⟩⟩⟩⟩⟩
    · simp [goEncode, goDecodeAux]
    · have hx0 : x0 < 256 := hb x0 (by simp)
      obtain ⟨f, rfl⟩ : ∃ f, fuel = f + 1 := ⟨fuel - 1, by simp at hf; omega⟩
      rw [show goEncode [x0] = encGroup [x0] from rfl]
      simp only [encGroup]
      have hv : ∀ v ∈ [x0 / 8, x0 % 8 * 4], v < 32 := by
        intro v hv
        simp only [List.mem_cons, List.not_mem_nil, or_false] at hv
        rcases hv with rfl | rfl <;> omega
      have hr : readQuantum 8 0 [] (List.map encChar [x0 / 8, x0 % 8 * 4]
          ++ List.replicate 6 '0')
          = some ([x0 / 8, x0 % 8 * 4], true, List.replicate 5 '0') := by
        rw [readQuantum_valid_seg _ hv 8 0 [] _ (by norm_num)]
        exact readQuantum_pad 2 _ (by norm_num)
      rw [goDecodeAux_read f _ (by simp) _ _ _ hr, if_pos rfl, pack_enc_1 x0 hx0]
    · have hx0 : x0 < 256 := hb x0 (by simp)
      have hx1 : x1 < 256 := hb x1 (by simp)
      obtain ⟨f, rfl⟩ : ∃ f, fuel = f + 1 := ⟨fuel - 1, by simp at hf; omega⟩
      rw [show goEncode [x0, x1] = encGroup [x0, x1] from rfl]
      simp only [encGroup]
      have hv : ∀ v ∈ [x0 / 8, x0 % 8 * 4 + x1 / 64, x1 / 2 % 32, x1 % 2 * 16],
          v < 32 := by
        intro v hv
        simp only [List.mem_cons, List.not_mem_nil, or_false] at hv
        rcases hv with rfl | rfl | rfl | rfl <;> omega
      have hr : readQuantum 8 0 []
          (List.map encChar [x0 / 8, x0 % 8 * 4 + x1 / 64, x1 / 2 % 32, x1 % 2 * 16]
            ++ List.replicate 4 '0')
          = some ([x0 / 8, x0 % 8 * 4 + x1 / 64, x1 / 2 % 32, x1 % 2 * 16],
              true, List.replicate 3 '0') := by
        rw [readQuantum_valid_seg _ hv 8 0 [] _ (by norm_num)]
        exact readQuantum_pad 4 _ (by norm_num)
      rw [goDecodeAux_read f _ (by simp) _ _ _ hr, if_pos rfl, pack_enc_2 x0 x1 hx0 hx1]
    · have hx0 : x0 < 256 := hb x0 (by simp)
      have hx1 : x1 < 256 := hb x1 (by simp)
      have hx2 : x2 < 256 := hb x2 (by simp)
      obtain ⟨f, rfl⟩ : ∃ f, fuel = f + 1 := ⟨fuel - 1, by simp at hf; omega⟩
      rw [show goEncode [x0, x1, x2] = encGroup [x0, x1, x2] from rfl]
      simp only [encGroup]
      have hv : ∀ v ∈ [x0 / 8, x0 % 8 * 4 + x1 / 64, x1 / 2 % 32,
          x1 % 2 * 16 + x2 / 16, x2 % 16 * 2], v < 32 := by
        intro v hv
        simp only [List.mem_cons, List.not_mem_nil, or_false] at hv
        rcases hv with rfl | rfl | rfl | rfl | rfl <;> omega
      have hr : readQuantum 8 0 []
          (List.map encChar [x0 / 8, x0 % 8 * 4 + x1 / 64, x1 / 2 % 32,
            x1 % 2 * 16 + x2 / 16, x2 % 16 * 2] ++ List.replicate 3 '0')
          = some ([x0 / 8, x0 % 8 * 4 + x1 / 64, x1 / 2 % 32,
              x1 % 2 * 16 + x2 / 16, x2 % 16 * 2], true, List.replicate 2 '0') := by
        rw [readQuantum_valid_seg _ hv 8 0 [] _ (by norm_num)]
        exact readQuantum_pad 5 _ (by norm_num)
      rw [goDecodeAux_read f _ (by simp) _ _ _ hr, if_pos rfl,
        pack_enc_3 x0 x1 x2 hx0 hx1 hx2]
    · have hx0 : x0 < 256 := hb x0 (by simp)
      have hx1 : x1 < 256 := hb x1 (by simp)
      have hx2 : x2 < 256 := hb x2 (by simp)
      have hx3 : x3 < 256 := hb x3 (by simp)
      obtain ⟨f, rfl⟩ : ∃ f, fuel = f + 1 := ⟨fuel - 1, by simp at hf; omega⟩
      rw [show goEncode [x0, x1, x2, x3] = encGroup [x0, x1, x2, x3] from rfl]
      simp only [encGroup]
      have hv : ∀ v ∈ [x0 / 8, x0 % 8 * 4 + x1 / 64, x1 / 2 % 32,
          x1 % 2 * 16 + x2 / 16, x2 % 16 * 2 + x3 / 128, x3 / 4 % 32, x3 % 4 * 8],
          v < 32 := by
        intro v hv
        simp only [List.mem_cons, List.not_mem_nil, or_false] at hv
        rcases hv with rfl | rfl | rfl | rfl | rfl | rfl | rfl <;> omega
      have hr : readQuantum 8 0 []
          (List.map encChar [x0 / 8, x0 % 8 * 4 + x1 / 64, x1 / 2 % 32,
            x1 % 2 * 16 + x2 / 16, x2 % 16 * 2 + x3 / 128, x3 / 4 % 32, x3 % 4 * 8]
            ++ List.replicate 1 '0')
          = some ([x0 / 8, x0 % 8 * 4 + x1 / 64, x1 / 2 % 32,
              x1 % 2 * 16 + x2 / 16, x2 % 16 * 2 + x3 / 128, x3 / 4 % 32, x3 % 4 * 8],
              true, List.replicate 0 '0') := by
        rw [readQuantum_valid_seg _ hv 8 0 [] _ (by norm_num)]
        exact readQuantum_pad 7 _ (by norm_num)
      rw [goDecodeAux_read f _ (by simp) _ _ _ hr, if_pos rfl,
        pack_enc_4 x0 x1 x2 x3 hx0 hx1 hx2 hx3]
    · have hx0 : x0 < 256 := hb x0 (by simp)
      have hx1 : x1 < 256 := hb x1 (by simp)
      have hx2 : x2 < 256 := hb x2 (by simp)
      have hx3 : x3 < 256 := hb x3 (by simp)
      have hx4 : x4 < 256 := hb x4 (by simp)
      have hbrest : ∀ b ∈ rest, b < 256 := by
        intro b hbm
        exact hb b (by simp [hbm])
      have hlrest : rest.length ≤ n := by
        simp only [List.length_cons] at hlen
        omega
      obtain ⟨f, rfl⟩ : ∃ f, fuel = f + 1 := ⟨fuel - 1, by
        simp only [List.length_cons] at hf
        omega⟩
      have hfrest : (rest.length + 4) / 5 ≤ f := by
        simp only [List.length_cons] at hf
        omega
      rw [show goEncode (x0 :: x1 :: x2 :: x3 :: x4 :: rest)
            = encGroup [x0, x1, x2, x3, x4] ++ goEncode rest from rfl]
      simp only [encGroup]
      have hv : ∀ v ∈ [x0 / 8, x0 % 8 * 4 + x1 / 64, x1 / 2 % 32,
          x1 % 2 * 16 + x2 / 16, x2 % 16 * 2 + x3 / 128, x3 / 4 % 32,
          x3 % 4 * 8 + x4 / 32, x4 % 32], v < 32 := by
        intro v hv
        simp only [List.mem_cons, List.not_mem_nil, or_false] at hv
        rcases hv with rfl | rfl | rfl | rfl | rfl | rfl | rfl | rfl <;> omega
      have hr : readQuantum 8 0 []
          (List.map encChar [x0 / 8, x0 % 8 * 4 + x1 / 64, x1 / 2 % 32,
            x1 % 2 * 16 + x2 / 16, x2 % 16 * 2 + x3 / 128, x3 / 4 % 32,
            x3 % 4 * 8 + x4 / 32, x4 % 32] ++ goEncode rest)
          = some ([x0 / 8, x0 % 8 * 4 + x1 / 64, x1 / 2 % 32,
              x1 % 2 * 16 + x2 / 16, x2 % 16 * 2 + x3 / 128, x3 / 4 % 32,
              x3 % 4 * 8 + x4 / 32, x4 % 32], false, goEncode rest) := by
        rw [readQuantum_valid_seg _ hv 8 0 [] _ (by norm_num)]
        rfl
      rw [goDecodeAux_read f _ (by simp) _ _ _ hr,
        if_neg Bool.false_ne_true, ih rest f hlrest hbrest hfrest]
      rw [show (some rest).map
            (fun tl => packQuantum [x0 / 8, x0 % 8 * 4 + x1 / 64, x1 / 2 % 32,
              x1 % 2 * 16 + x2 / 16, x2 % 16 * 2 + x3 / 128, x3 / 4 % 32,
              x3 % 4 * 8 + x4 / 32, x4 % 32] ++ tl)
          = some (packQuantum [x0 / 8, x0 % 8 * 4 + x1 / 64, x1 / 2 % 32,
              x1 % 2 * 16 + x2 / 16, x2 % 16 * 2 + x3 / 128, x3 / 4 % 32,
              x3 % 4 * 8 + x4 / 32, x4 % 32] ++ rest) from rfl,
        pack_enc_5 x0 x1 x2 x3 x4 hx0 hx1 hx2 hx3 hx4]
      rfl

/-- Round trip of the spec's base32 wire encoding through Go's decoder. -/
theorem goDecode_goEncode (P : List Nat) (hb : ∀ b ∈ P, b < 256) :
    goDecode (goEncode P) = some P := by
  unfold goDecode
  rw [length_goEncode P]
  exact goDecodeAux_goEncode_aux P.length P _ le_rfl hb (by omega)

theorem encGroup_chars (bs : List Nat) :
    ∀ c ∈ encGroup bs, c ∈ alphabetChars ∨ c = '0' := by
  rcases bs with _ | ⟨x0, _ | ⟨x1, _ | ⟨x2, _ | ⟨x3, _ | ⟨x4, r⟩⟩⟩⟩⟩
  · intro c hc
    cases hc
  all_goals
    intro c hc
    simp only [encGroup, List.mem_append, List.mem_map, List.mem_replicate,
      List.mem_cons, List.not_mem_nil, or_false] at hc
  · rcases hc with ⟨v, -, rfl⟩ | ⟨-, rfl⟩
    · exact Or.inl (encChar_mem v)
    · exact Or.inr rfl
  · rcases hc with ⟨v, -, rfl⟩ | ⟨-, rfl⟩
    · exact Or.inl (encChar_mem v)
    · exact Or.inr rfl
  · rcases hc with ⟨v, -, rfl⟩ | ⟨-, rfl⟩
    · exact Or.inl (encChar_mem v)
    · exact Or.inr rfl
  · rcases hc with ⟨v, -, rfl⟩ | ⟨-, rfl⟩
    · exact Or.inl (encChar_mem v)
    · exact Or.inr rfl
  · rcases hc with ⟨v, -, rfl⟩
    exact Or.inl (encChar_mem v)

theorem goEncode_chars_aux (n : Nat) : ∀ P : List Nat, P.length ≤ n →
    ∀ c ∈ goEncode P, c ∈ alphabetChars ∨ c = '0' := by
  induction n with
  | zero =>
    intro P hlen c hc
    have : P = [] := List.eq_nil_of_length_eq_zero (by omega)
    subst this
    cases hc
  | succ n ih =>
    intro P hlen c hc
    rcases P with _ | ⟨x0, _ | ⟨x1, _ | ⟨x2, _ | ⟨x3, _ | ⟨x4, rest⟩⟩⟩⟩⟩
    · cases hc
    · exact encGroup_chars [x0] c hc
    · exact encGroup_chars [x0, x1] c hc
    · exact encGroup_chars [x0, x1, x2] c hc
    · exact encGroup_chars [x0, x1, x2, x3] c hc
    · rw [show goEncode (x0 :: x1 :: x2 :: x3 :: x4 :: rest)
            = encGroup [x0, x1, x2, x3, x4] ++ goEncode rest from rfl] at hc
      rcases List.mem_append.mp hc with h | h
      · exact encGroup_chars [x0, x1, x2, x3, x4] c h
      · have hlrest : rest.length ≤ n := by
          simp only [List.length_cons] at hlen
          omega
        exact ih rest hlrest c h

theorem stripNewlines_goEncode (P : List Nat) :
    stripNewlines (goEncode P) = goEncode P := by
  apply List.filter_eq_self.mpr
  intro c hc
  rcases goEncode_chars_aux P.length P le_rfl c hc with h | rfl
  · have hall : ∀ x ∈ alphabetChars, (!(x = '\r' || x = '\n')) = true := by decide
    exact hall c h
  · decide

/-- Round trip through `DecodeString` (newline stripping included). -/
theorem goDecodeString_goEncode (P : List Nat) (hb : ∀ b ∈ P, b < 256) :
    goDecodeString (goEncode P) = some P := by
  unfold goDecodeString
  rw [stripNewlines_goEncode P]
  exact goDecode_goEncode P hb

/-! ### Assembly of disjoint covering chunks rebuilds the buffer -/

theorem copyBytes_length (buf : List Char) (off : Nat) (data : List Char) :
    (copyBytes buf off data).length = buf.length := by
  simp only [copyBytes, List.length_append, List.length_take, List.length_drop]
  omega

theorem copyBytes_getElem? (buf : List Char) (off : Nat) (data : List Char)
    (h : off + data.length ≤ buf.length) (i : Nat) :
    (copyBytes buf off data)[i]? =
      if off ≤ i ∧ i < off + data.length then data[i - off]? else buf[i]? := by
  simp only [copyBytes, List.append_assoc, List.getElem?_append, List.getElem?_take,
    List.getElem?_drop, List.length_take, List.length_append]
  split_ifs <;> first
    | rfl
    | omega
    | (congr 1; omega)

theorem foldCopy_cons (p : Int × fragment) (rest : List (Int × fragment))
    (buf : List Char) :
    foldCopy (p :: rest) buf = foldCopy rest (copyBytes buf p.2.offset.toNat p.2.data) :=
  rfl

theorem foldCopy_length (frs : List (Int × fragment)) :
    ∀ buf : List Char, (foldCopy frs buf).length = buf.length := by
  induction frs with
  | nil => intro buf; rfl
  | cons p rest ih =>
    intro buf
    rw [foldCopy_cons, ih, copyBytes_length]

theorem foldCopy_getElem?_outside (frs : List (Int × fragment)) :
    ∀ (buf : List Char) (i : Nat),
    (∀ p ∈ frs, i < p.2.offset.toNat ∨ p.2.offset.toNat + p.2.data.length ≤ i) →
    (∀ p ∈ frs, p.2.offset.toNat + p.2.data.length ≤ buf.length) →
    (foldCopy frs buf)[i]? = buf[i]? := by
  induction frs with
  | nil => intro buf i _ _; rfl
  | cons p rest ih =>
    intro buf i hout hin
    rw [foldCopy_cons,
      ih _ i (fun q hq => hout q (List.mem_cons_of_mem p hq))
        (fun q hq => by
          rw [copyBytes_length]
          exact hin q (List.mem_cons_of_mem p hq)),
      copyBytes_getElem? _ _ _ (hin p (List.mem_cons_self p rest)) i,
      if_neg (by
        rcases hout p (List.mem_cons_self p rest) with h | h <;> omega)]

theorem foldCopy_getElem?_inside (frs : List (Int × fragment)) :
    ∀ (buf : List Char) (p₀ : Int × fragment) (i : Nat), p₀ ∈ frs →
    p₀.2.offset.toNat ≤ i → i < p₀.2.offset.toNat + p₀.2.data.length →
    List.Pairwise (fun p q => p.2.offset.toNat + p.2.data.length ≤ q.2.offset.toNat ∨
      q.2.offset.toNat + q.2.data.length ≤ p.2.offset.toNat) frs →
    (∀ p ∈ frs, p.2.offset.toNat + p.2.data.length ≤ buf.length) →
    (foldCopy frs buf)[i]? = p₀.2.data[i - p₀.2.offset.toNat]? := by
  induction frs with
  | nil => intro _ _ _ hmem; cases hmem
  | cons p rest ih =>
    intro buf p₀ i hmem hlo hhi hdisj hin
    rcases List.mem_cons.mp hmem with rfl | hmem'
    · rw [foldCopy_cons,
        foldCopy_getElem?_outside rest _ i
          (fun q hq => by
            rcases (List.pairwise_cons.mp hdisj).1 q hq with h | h <;> omega)
          (fun q hq => by
            rw [copyBytes_length]
            exact hin q (List.mem_cons_of_mem p₀ hq)),
        copyBytes_getElem? _ _ _ (hin p₀ (List.mem_cons_self p₀ rest)) i,
        if_pos ⟨hlo, hhi⟩]
    · rw [foldCopy_cons]
      exact ih _ p₀ i hmem' hlo hhi (List.pairwise_cons.mp hdisj).2
        (fun q hq => by
          rw [copyBytes_length]
          exact hin q (List.mem_cons_of_mem p hq))

/-! ### Chunk lists: bounds, disjointness, coverage, total length -/

theorem chunksFrom_spec (blob : List Char) : ∀ (sizes : List Nat) (off : Nat),
    (∀ s ∈ sizes, 0 < s) → off + sizes.sum ≤ blob.length →
    ∀ p ∈ chunksFrom blob off sizes,
      off ≤ p.1 ∧ 0 < p.2.length ∧ p.1 + p.2.length ≤ off + sizes.sum ∧
      p.2 = (blob.drop p.1).take p.2.length := by
  intro sizes
  induction sizes with
  | nil =>
    intro off _ _ p hp
    cases hp
  | cons s ss ih =>
    intro off hs hsum p hp
    simp only [List.sum_cons] at hsum
    have hslen : ((blob.drop off).take s).length = s := by
      rw [List.length_take, List.length_drop]
      omega
    rcases List.mem_cons.mp hp with rfl | hp'
    · refine ⟨le_rfl, ?_, ?_, ?_⟩
      · rw [hslen]
        exact hs s (List.mem_cons_self s ss)
      · rw [hslen]
        simp only [List.sum_cons]
        omega
      · rw [hslen]
    · have hss : ∀ x ∈ ss, 0 < x := fun x hx => hs x (List.mem_cons_of_mem s hx)
      have := ih (off + s) hss (by omega) p hp'
      refine ⟨by omega, this.2.1, ?_, this.2.2.2⟩
      simp only [List.sum_cons]
      omega

theorem chunksFrom_sumLen (blob : List Char) : ∀ (sizes : List Nat) (off : Nat),
    off + sizes.sum ≤ blob.length →
    ((chunksFrom blob off sizes).map (fun c => c.2.length)).sum = sizes.sum := by
  intro sizes
  induction sizes with
  | nil => intro off _; rfl
  | cons s ss ih =>
    intro off hsum
    simp only [List.sum_cons] at hsum
    have hslen : ((blob.drop off).take s).length = s := by
      rw [List.length_take, List.length_drop]
      omega
    simp only [chunksFrom, List.map_cons, List.sum_cons, hslen, ih (off + s) (by omega),
      List.sum_cons]

theorem chunksFrom_pairwise (blob : List Char) : ∀ (sizes : List Nat) (off : Nat),
    (∀ s ∈ sizes, 0 < s) → off + sizes.sum ≤ blob.length →
    List.Pairwise (fun p q => p.1 + p.2.length ≤ q.1) (chunksFrom blob off sizes) := by
  intro sizes
  induction sizes with
  | nil =>
    intro off _ _
    exact List.Pairwise.nil
  | cons s ss ih =>
    intro off hs hsum
    simp only [List.sum_cons] at hsum
    have hss : ∀ x ∈ ss, 0 < x := fun x hx => hs x (List.mem_cons_of_mem s hx)
    have hslen : ((blob.drop off).take s).length = s := by
      rw [List.length_take, List.length_drop]
      omega
    simp only [chunksFrom]
    refine List.pairwise_cons.mpr ⟨?_, ih (off + s) hss (by omega)⟩
    intro q hq
    have hspec := chunksFrom_spec blob ss (off + s) hss (by omega) q hq
    simp only [hslen]
    omega

theorem chunksFrom_cover (blob : List Char) : ∀ (sizes : List Nat) (off : Nat),
    (∀ s ∈ sizes, 0 < s) → off + sizes.sum ≤ blob.length →
    ∀ i, off ≤ i → i < off + sizes.sum →
    ∃ p ∈ chunksFrom blob off sizes, p.1 ≤ i ∧ i < p.1 + p.2.length := by
  intro sizes
  induction sizes with
  | nil =>
    intro off _ _ i _ hlt
    simp only [List.sum_nil] at hlt
    omega
  | cons s ss ih =>
    intro off hs hsum i hge hlt
    simp only [List.sum_cons] at hsum hlt
    have hss : ∀ x ∈ ss, 0 < x := fun x hx => hs x (List.mem_cons_of_mem s hx)
    have hslen : ((blob.drop off).take s).length = s := by
      rw [List.length_take, List.length_drop]
      omega
    by_cases hcase : i < off + s
    · exact ⟨(off, (blob.drop off).take s),
        List.mem_cons_self _ _, hge, by rw [hslen]; omega⟩
    · obtain ⟨p, hpm, hp1, hp2⟩ := ih (off + s) hss (by omega) i (by omega) (by omega)
      exact ⟨p, List.mem_cons_of_mem _ hpm, hp1, hp2⟩

theorem chunksFrom_nodup_keys (blob : List Char) (sizes : List Nat) (off : Nat)
    (hs : ∀ s ∈ sizes, 0 < s) (hsum : off + sizes.sum ≤ blob.length) :
    ((chunksFrom blob off sizes).map Prod.fst).Nodup := by
  have hpw := chunksFrom_pairwise blob sizes off hs hsum
  have hlt : List.Pairwise (fun p q : Nat × List Char => p.1 < q.1)
      (chunksFrom blob off sizes) := by
    refine hpw.imp_of_mem ?_
    intro p q hp _ hle
    have := chunksFrom_spec blob sizes off hs hsum p hp
    omega
  exact List.Pairwise.imp Nat.ne_of_lt (hlt.map Prod.fst (fun a b h => h))

/-- Writing a permutation of the chunks of `blob` (as fragments) into a
zero-filled buffer of `blob`'s length reproduces `blob`, whatever the write
order. -/
theorem foldCopy_perm_chunks (blob : List Char) (sizes : List Nat)
    (id : List Char) (hs : ∀ s ∈ sizes, 0 < s) (hsum : sizes.sum = blob.length)
    (l : List (Nat × List Char)) (hperm : l.Perm (chunksFrom blob 0 sizes)) :
    foldCopy (fragsOf id blob.length l) (List.replicate blob.length nulChar)
      = blob := by
  have hbound : 0 + sizes.sum ≤ blob.length := by omega
  have hspec : ∀ p ∈ l, p.1 + p.2.length ≤ blob.length ∧ 0 < p.2.length ∧
      p.2 = (blob.drop p.1).take p.2.length := by
    intro p hp
    have := chunksFrom_spec blob sizes 0 hs hbound p (hperm.mem_iff.mp hp)
    exact ⟨by omega, this.2.1, this.2.2.2⟩
  have hin : ∀ p ∈ fragsOf id blob.length l,
      p.2.offset.toNat + p.2.data.length ≤ (List.replicate blob.length nulChar).length := by
    intro p hp
    obtain ⟨c, hc, rfl⟩ := List.mem_map.mp hp
    simp only [mkFrag, Int.toNat_natCast, List.length_replicate]
    exact (hspec c hc).1
  have hdisj : List.Pairwise
      (fun p q : Int × fragment =>
        p.2.offset.toNat + p.2.data.length ≤ q.2.offset.toNat ∨
        q.2.offset.toNat + q.2.data.length ≤ p.2.offset.toNat)
      (fragsOf id blob.length l) := by
    have hord := chunksFrom_pairwise blob sizes 0 hs hbound
    have hsym : List.Pairwise
        (fun p q : Nat × List Char =>
          p.1 + p.2.length ≤ q.1 ∨ q.1 + q.2.length ≤ p.1)
        (chunksFrom blob 0 sizes) := hord.imp Or.inl
    have hlsym := (hperm.pairwise_iff (fun h => h.symm)).mpr hsym
    exact hlsym.map _ (fun a b h => by
      simp only [mkFrag, Int.toNat_natCast]
      exact h)
  apply List.ext_getElem?
  intro i
  by_cases hi : i < blob.length
  · obtain ⟨c, hcm, hc1, hc2⟩ := chunksFrom_cover blob sizes 0 hs hbound i
      (Nat.zero_le i) (by omega)
    have hcl : c ∈ l := hperm.mem_iff.mpr hcm
    have hc3 := chunksFrom_spec blob sizes 0 hs hbound c hcm
    have hmemf : ((c.1 : Int), mkFrag id blob.length c) ∈ fragsOf id blob.length l :=
      List.mem_map.mpr ⟨c, hcl, rfl⟩
    rw [foldCopy_getElem?_inside (fragsOf id blob.length l) _ _ i hmemf
      (by simp only [mkFrag, Int.toNat_natCast]; exact hc1)
      (by simp only [mkFrag, Int.toNat_natCast]; exact hc2) hdisj hin]
    simp only [mkFrag, Int.toNat_natCast]
    conv_lhs => rw [hc3.2.2.2]
    rw [List.getElem?_take, if_pos (by omega), List.getElem?_drop]
    congr 1
    omega
  · have hl1 : (foldCopy (fragsOf id blob.length l)
        (List.replicate blob.length nulChar)).length = blob.length := by
      rw [foldCopy_length, List.length_replicate]
    rw [List.getElem?_eq_none (by omega), List.getElem?_eq_none (by omega)]

/-! ### The full ingestion run over one transfer's fragments -/

theorem updateFrags_not_mem (frs : List (Int × fragment)) (k : Int) (f : fragment)
    (h : k ∉ frs.map Prod.fst) : updateFrags frs k f = frs ++ [(k, f)] := by
  induction frs with
  | nil => rfl
  | cons p rest ih =>
    obtain ⟨k', f'⟩ := p
    simp only [List.map_cons, List.mem_cons, not_or] at h
    simp only [updateFrags]
    rw [if_neg (fun hh => h.1 hh.symm), ih h.2]
    rfl

theorem sumLens_foldl (frs : List (Int × fragment)) : ∀ a : Int,
    frs.foldl (fun a p => a + (p.2.data.length : Int)) a
      = a + ((((frs.map (fun p => p.2.data.length)).sum : Nat)) : Int) := by
  induction frs with
  | nil => intro a; simp
  | cons p rest ih =>
    intro a
    simp only [List.foldl_cons, List.map_cons, List.sum_cons, ih]
    push_cast
    ring

theorem sumLens_eq (frs : List (Int × fragment)) :
    sumLens frs = ((((frs.map (fun p => p.2.data.length)).sum : Nat)) : Int) := by
  unfold sumLens
  rw [sumLens_foldl, zero_add]

theorem sumLens_fragsOf (id : List Char) (T : Nat) (l : List (Nat × List Char)) :
    sumLens (fragsOf id T l) = ((((l.map (fun c => c.2.length)).sum : Nat)) : Int) := by
  rw [sumLens_eq]
  have hm : (List.map (fun p => p.2.data.length) (fragsOf id T l)).sum
      = (List.map (fun c => c.2.length) l).sum := by
    simp only [fragsOf, List.map_map]
    rfl
  exact congrArg (fun n : Nat => (n : Int)) hm

theorem assembleGo_eval (fl : fragmentList) (buf : List Char)
    (hT : ¬ fl.totalSize < 0)
    (hcopy : assembleCopy fl.totalSize
        (List.replicate fl.totalSize.toNat nulChar) fl.fragments = .ok buf) :
    assembleGo fl
      = (match goDecodeString buf with | none => .err | some dec => .ok dec) := by
  unfold assembleGo
  rw [if_neg hT, hcopy]

theorem runIngest_cons_quiet (top : List Char) (exp now : Int) (st st' : Store)
    (d : List Char) (ds : List (List Char))
    (h : ingestGo top exp now st d = (st', .quiet)) :
    runIngest top exp now st (d :: ds) = runIngest top exp now st' ds := by
  simp only [runIngest]
  rw [h]

theorem runIngest_cons_emit (top : List Char) (exp now : Int) (st st' : Store)
    (d : List Char) (ds : List (List Char)) (m : List Nat)
    (h : ingestGo top exp now st d = (st', .emit m)) :
    runIngest top exp now st (d :: ds)
      = (runIngest top exp now st' ds).map (fun r => (r.1, m :: r.2)) := by
  simp only [runIngest]
  rw [h]

theorem assembleCopy_ok (Tz : Int) (frs : List (Int × fragment)) :
    ∀ buf : List Char, (∀ p ∈ frs, 0 ≤ p.2.offset ∧ p.2.offset < Tz) →
    assembleCopy Tz buf frs = .ok (foldCopy frs buf) := by
  induction frs with
  | nil => intro buf _; rfl
  | cons p rest ih =>
    intro buf h
    obtain ⟨k, f⟩ := p
    have hp1 : (0 : Int) ≤ f.offset := (h (k, f) (List.mem_cons_self _ _)).1
    have hp2 : f.offset < Tz := (h (k, f) (List.mem_cons_self _ _)).2
    simp only [assembleCopy]
    rw [if_neg (not_le.mpr hp2), if_neg (not_lt.mpr hp1),
      ih _ (fun q hq => h q (List.mem_cons_of_mem _ hq))]
    rfl

/-- Processing the fragment domains of the remaining chunks `r` of one
transfer, starting from a store already holding the chunks `done`, emits
exactly the decoded payload and ends with the empty store. -/
theorem runIngest_chunks (top id : List Char) (hid : '.' ∉ id) (exp now : Int)
    (P : List Nat) (hb : ∀ b ∈ P, b < 256) (sizes : List Nat)
    (hs : ∀ s ∈ sizes, 0 < s) (hsum : sizes.sum = (goEncode P).length)
    (hrange : (goEncode P).length < 2 ^ 63) :
    ∀ (r done : List (Nat × List Char)) (st : Store),
      (done ++ r).Perm (chunksFrom (goEncode P) 0 sizes) →
      ((st = [] ∧ done = []) ∨ st = storeOf id (goEncode P).length done (now + exp)) →
      r ≠ [] →
      runIngest top exp now st (r.map (mkDomain top id (goEncode P).length))
        = some ([], [P]) := by
  intro r
  induction r with
  | nil =>
    intro done st _ _ hne
    exact absurd rfl hne
  | cons c r' ih =>
    intro done st hperm hst _
    have hbound : 0 + sizes.sum ≤ (goEncode P).length := by omega
    have hcm : c ∈ chunksFrom (goEncode P) 0 sizes :=
      hperm.mem_iff.mp (by simp)
    have hcspec := chunksFrom_spec (goEncode P) sizes 0 hs hbound c hcm
    have hdotdata : '.' ∉ c.2 := by
      intro hmem
      rw [hcspec.2.2.2] at hmem
      have h1 : ('.' : Char) ∈ goEncode P :=
        List.mem_of_mem_drop (List.mem_of_mem_take hmem)
      rcases goEncode_chars_aux P.length P le_rfl '.' h1 with h | h
      · exact absurd h (by decide)
      · exact absurd h (by decide)
    have ho : c.1 < 2 ^ 63 := by
      have := hcspec.2.1
      have := hcspec.2.2.1
      omega
    have hp : parseDomain top (mkDomain top id (goEncode P).length c)
        = some ⟨id, ((goEncode P).length : Int), (c.1 : Int), c.2⟩ :=
      parseDomain_mkDomain top id (goEncode P).length c.1 c.2 hid hdotdata hrange ho
    -- distinctness of the chunk keys
    have hkeys := chunksFrom_nodup_keys (goEncode P) sizes 0 hs hbound
    have hkeyperm : ((done ++ c :: r').map Prod.fst).Nodup :=
      ((hperm.map Prod.fst).nodup_iff).mpr hkeys
    have hcnot : c.1 ∉ done.map Prod.fst := by
      intro hmem
      rw [List.map_append] at hkeyperm
      rcases List.nodup_append.mp hkeyperm with ⟨-, -, hdisj⟩
      exact hdisj hmem (by simp)
    have hcnotI : ((c.1 : Int)) ∉ (fragsOf id (goEncode P).length done).map Prod.fst := by
      intro hmem
      simp only [fragsOf, List.map_map] at hmem
      obtain ⟨c', hc', he⟩ := List.mem_map.mp hmem
      have : c'.1 = c.1 := by simpa using he
      exact hcnot (this ▸ List.mem_map_of_mem Prod.fst hc')
    have hupd : updateFrags (fragsOf id (goEncode P).length done) (c.1 : Int)
        (mkFrag id (goEncode P).length c)
        = fragsOf id (goEncode P).length (done ++ [c]) := by
      rw [updateFrags_not_mem _ _ _ hcnotI]
      simp [fragsOf]
    -- the updated fragment list is the same in both starting configurations
    have hfl1 : (⟨((goEncode P).length : Int),
          fragsOf id (goEncode P).length (done ++ [c]), now + exp⟩ : fragmentList)
        = ⟨(fragment.mk id ((goEncode P).length : Int) (c.1 : Int) c.2).totalSize,
            updateFrags ((lookupStore st
                (fragment.mk id ((goEncode P).length : Int) (c.1 : Int) c.2).id).getD
              ⟨0, [], now + exp⟩).fragments
              (fragment.mk id ((goEncode P).length : Int) (c.1 : Int) c.2).offset
              (fragment.mk id ((goEncode P).length : Int) (c.1 : Int) c.2),
            now + exp⟩ := by
      rcases hst with ⟨rfl, rfl⟩ | rfl
      · simp only [lookupStore, Option.getD_none, fragsOf, List.map_nil, List.nil_append,
          List.map_cons, updateFrags]
        rfl
      · simp only [storeOf, lookupStore, if_pos rfl, Option.getD_some]
        rw [← hupd]
        rfl
    -- byte sums
    have hmapperm := (hperm.map (fun c => c.2.length)).sum_eq
    rw [chunksFrom_sumLen (goEncode P) sizes 0 hbound] at hmapperm
    simp only [List.map_append, List.sum_append, List.map_cons, List.sum_cons] at hmapperm
    have hsumfl : sumLens (fragsOf id (goEncode P).length (done ++ [c]))
        = (((done.map (fun c => c.2.length)).sum + c.2.length : Nat) : Int) := by
      rw [sumLens_fragsOf]
      have hm : (List.map (fun x => x.2.length) (done ++ [c])).sum
          = (List.map (fun x => x.2.length) done).sum + c.2.length := by
        simp [List.map_append]
      exact congrArg (fun n : Nat => (n : Int)) (by rw [hm])
    by_cases hr' : r' = []
    · -- last fragment: completion, assembly, emission
      subst hr'
      have hdone : (done.map (fun c => c.2.length)).sum + c.2.length = sizes.sum := by
        simp only [List.map_nil, List.sum_nil] at hmapperm
        omega
      have hge : (⟨((goEncode P).length : Int),
            fragsOf id (goEncode P).length (done ++ [c]), now + exp⟩
              : fragmentList).totalSize
          ≤ sumLens (fragsOf id (goEncode P).length (done ++ [c])) := by
        rw [hsumfl]
        simp only []
        exact_mod_cast le_of_eq (by omega : (goEncode P).length
          = (done.map (fun c => c.2.length)).sum + c.2.length)
      have hpermfull : (done ++ [c]).Perm (chunksFrom (goEncode P) 0 sizes) := hperm
      have hoffs : ∀ p ∈ fragsOf id (goEncode P).length (done ++ [c]),
          0 ≤ p.2.offset ∧ p.2.offset < ((goEncode P).length : Int) := by
        intro p hpmem
        obtain ⟨c', hc', rfl⟩ := List.mem_map.mp hpmem
        have hcs := chunksFrom_spec (goEncode P) sizes 0 hs hbound c'
          (hpermfull.mem_iff.mp hc')
        constructor
        · simp only [mkFrag]
          exact Int.natCast_nonneg c'.1
        · simp only [mkFrag]
          exact_mod_cast (by omega : c'.1 < (goEncode P).length)
      have hfold : foldCopy (fragsOf id (goEncode P).length (done ++ [c]))
          (List.replicate (goEncode P).length nulChar) = goEncode P :=
        foldCopy_perm_chunks (goEncode P) sizes id hs hsum (done ++ [c]) hpermfull
      have hcopy : assembleCopy (((goEncode P).length : Nat) : Int)
          (List.replicate ((((goEncode P).length : Nat) : Int)).toNat nulChar)
          (fragsOf id (goEncode P).length (done ++ [c])) = .ok (goEncode P) := by
        simp only [Int.toNat_natCast]
        rw [assembleCopy_ok _ _ _ hoffs, hfold]
      have hasm : assembleGo ⟨((goEncode P).length : Int),
            fragsOf id (goEncode P).length (done ++ [c]), now + exp⟩ = .ok P := by
        rw [assembleGo_eval _ (goEncode P)
          (not_lt.mpr (Int.natCast_nonneg (goEncode P).length)) hcopy,
          goDecodeString_goEncode P hb]
      have hstep := ingest_complete_ok top exp now st
        (mkDomain top id (goEncode P).length c)
        (fragment.mk id ((goEncode P).length : Int) (c.1 : Int) c.2)
        ⟨((goEncode P).length : Int),
          fragsOf id (goEncode P).length (done ++ [c]), now + exp⟩ P hp hfl1 hge hasm
      have hstore : removeStore (updateStore st
          (fragment.mk id ((goEncode P).length : Int) (c.1 : Int) c.2).id
          ⟨((goEncode P).length : Int),
            fragsOf id (goEncode P).length (done ++ [c]), now + exp⟩)
          (fragment.mk id ((goEncode P).length : Int) (c.1 : Int) c.2).id = [] := by
        rcases hst with ⟨rfl, -⟩ | rfl
        · simp [updateStore, removeStore]
        · simp [storeOf, updateStore, removeStore]
      rw [List.map_cons, List.map_nil,
        runIngest_cons_emit top exp now st _ _ _ P hstep, hstore]
      rfl
    · -- more fragments to come: no completion yet
      have hr'pos : 0 < (r'.map (fun c => c.2.length)).sum := by
        rcases r' with _ | ⟨c'', r''⟩
        · exact absurd rfl hr'
        · have hcm'' : c'' ∈ chunksFrom (goEncode P) 0 sizes :=
            hperm.mem_iff.mp (by simp)
          have := (chunksFrom_spec (goEncode P) sizes 0 hs hbound c'' hcm'').2.1
          simp only [List.map_cons, List.sum_cons]
          omega
      have hlt : sumLens (fragsOf id (goEncode P).length (done ++ [c]))
          < (⟨((goEncode P).length : Int),
              fragsOf id (goEncode P).length (done ++ [c]), now + exp⟩
                : fragmentList).totalSize := by
        rw [hsumfl]
        simp only []
        exact_mod_cast (by omega : (done.map (fun c => c.2.length)).sum + c.2.length
          < (goEncode P).length)
      have hstep := ingest_not_ready top exp now st
        (mkDomain top id (goEncode P).length c)
        (fragment.mk id ((goEncode P).length : Int) (c.1 : Int) c.2)
        ⟨((goEncode P).length : Int),
          fragsOf id (goEncode P).length (done ++ [c]), now + exp⟩ hp hfl1 hlt
      have hupdstore : updateStore st
          (fragment.mk id ((goEncode P).length : Int) (c.1 : Int) c.2).id
          ⟨((goEncode P).length : Int),
            fragsOf id (goEncode P).length (done ++ [c]), now + exp⟩
          = storeOf id (goEncode P).length (done ++ [c]) (now + exp) := by
        rcases hst with ⟨rfl, rfl⟩ | rfl
        · simp [updateStore, storeOf]
        · simp [storeOf, updateStore]
      rw [List.map_cons, runIngest_cons_quiet top exp now st _ _ _ hstep, hupdstore]
      exact ih (done ++ [c]) _ (by simpa using hperm) (Or.inr rfl) hr'

/-- C1, counterexample.  For the empty payload the encoded blob is empty, and
its only possible fragment wrapping (`"m.0.0..t"`, a single empty chunk at
offset 0) produces no emission: `assemble` rejects offset `0 >= totalSize 0`,
the transfer stays in the store, and zero payloads are emitted instead of
exactly one. -/
theorem claim_C1_counterexample :
    goEncode [] = [] ∧
    runIngest "t".toList 0 0 emptyStore ["m.0.0..t".toList]
      = some ([("m".toList, ⟨0, [(0, ⟨"m".toList, 0, 0, []⟩)], 0⟩)], []) := by
  constructor
  · rfl
  · decide

/-- C1, amended.  For every nonempty byte payload `P`: encoding `P` with the
fixed 32-symbol alphabet, splitting the encoded blob into nonempty chunks at
arbitrary offsets, wrapping each chunk as `<id>.<totalSize>.<offset>.<data>.
<topDomain>` with a shared dot-free id and `totalSize` the encoded blob's
length (fitting in 64 bits), and feeding all resulting domains through
`parseDomain` and ingestion in any permutation of order yields exactly one
emitted payload, equal to `P` (and the transfer is removed from the store). -/
theorem claim_C1_amended (P : List Nat) (hP : P ≠ []) (hb : ∀ b ∈ P, b < 256)
    (top id : List Char) (hid : '.' ∉ id)
    (sizes : List Nat) (hs : ∀ s ∈ sizes, 0 < s)
    (hsum : sizes.sum = (goEncode P).length)
    (hrange : (goEncode P).length < 2 ^ 63)
    (l : List (Nat × List Char)) (hperm : l.Perm (chunksFrom (goEncode P) 0 sizes))
    (exp now : Int) :
    runIngest top exp now emptyStore (l.map (mkDomain top id (goEncode P).length))
      = some ([], [P]) := by
  have hTpos : 0 < (goEncode P).length := by
    rw [length_goEncode]
    rcases P with _ | ⟨a, t⟩
    · exact absurd rfl hP
    · simp only [List.length_cons]
      omega
  have hlne : l ≠ [] := by
    intro h
    subst h
    have hlen0 := hperm.length_eq
    rcases sizes with _ | ⟨s, ss⟩
    · rw [List.sum_nil] at hsum
      omega
    · simp [chunksFrom] at hlen0
  exact runIngest_chunks top id hid exp now P hb sizes hs hsum hrange l [] emptyStore
    (by simpa using hperm) (Or.inl ⟨rfl, rfl⟩) hlne

/-- Witness for the amended C1: payload `"hi"`, encoded blob `"nbuq0000"`
split at offset 4, fragments delivered out of order. -/
theorem claim_C1_amended_witness :
    runIngest "t".toList 0 0 emptyStore
      ([(4, "0000".toList), (0, "nbuq".toList)].map
        (mkDomain "t".toList "m".toList (goEncode [104, 105]).length))
      = some ([], [[104, 105]]) := by
  exact claim_C1_amended [104, 105] (by decide) (by decide) "t".toList "m".toList
    (by decide) [4, 4] (by decide) (by decide) (by decide)
    [(4, "0000".toList), (0, "nbuq".toList)] (by decide) 0 0

/-! ### Idempotence of duplicate fragments while a transfer is live -/

theorem updateFrags_lookup_self (frs : List (Int × fragment)) (k : Int) (f : fragment)
    (h : lookupFrag frs k = some f) : updateFrags frs k f = frs := by
  induction frs with
  | nil => cases h
  | cons p rest ih =>
    obtain ⟨k', f'⟩ := p
    simp only [lookupFrag] at h
    simp only [updateFrags]
    by_cases hk : k' = k
    · rw [if_pos hk] at h
      injection h with h1
      rw [if_pos hk, hk, h1]
    · rw [if_neg hk] at h
      rw [if_neg hk, ih h]

theorem updateStore_lookup_self (st : Store) (id : List Char) (fl : fragmentList)
    (h : lookupStore st id = some fl) : updateStore st id fl = st := by
  induction st with
  | nil => cases h
  | cons p rest ih =>
    obtain ⟨k, fl'⟩ := p
    simp only [lookupStore] at h
    simp only [updateStore]
    by_cases hk : k = id
    · rw [if_pos hk] at h
      injection h with h1
      rw [if_pos hk, hk, h1]
    · rw [if_neg hk] at h
      rw [if_neg hk, ih h]

theorem invStore_empty (exp now : Int) : invStore exp now emptyStore := by
  intro id fl h
  cases h

/-- Each non-panicking ingest step preserves the reachable-store invariant. -/
theorem invStore_ingest (top : List Char) (exp now : Int) (st : Store) (dom : List Char)
    (h : invStore exp now st) (st' : Store) (out : IngestOut)
    (hin : ingestGo top exp now st dom = (st', out)) (hnp : out ≠ .panicked) :
    invStore exp now st' := by
  cases hpd : parseDomain top dom with
  | none =>
    have heq : ingestGo top exp now st dom = (st, .quiet) := by
      unfold ingestGo
      rw [hpd]
    rw [heq] at hin
    injection hin with h1 h2
    subst h1
    exact h
  | some fg =>
    set FL : fragmentList := ⟨fg.totalSize,
      updateFrags ((lookupStore st fg.id).getD ⟨0, [], now + exp⟩).fragments fg.offset fg,
      now + exp⟩ with hFL
    by_cases hsum : FL.totalSize ≤ sumLens FL.fragments
    · cases ha : assembleGo FL with
      | ok m =>
        rw [ingest_complete_ok top exp now st dom fg FL m hpd hFL hsum ha] at hin
        injection hin with h1 h2
        subst h1
        intro id' fl' hlk
        by_cases hid : id' = fg.id
        · subst hid
          rw [lookupStore_removeStore_self] at hlk
          cases hlk
        · rw [lookupStore_removeStore_other _ _ _ hid,
            lookupStore_updateStore_other _ _ _ _ hid] at hlk
          exact h id' fl' hlk
      | err =>
        rw [ingest_complete_err top exp now st dom fg FL hpd hFL hsum ha] at hin
        injection hin with h1 h2
        subst h1
        intro id' fl' hlk
        by_cases hid : id' = fg.id
        · subst hid
          rw [lookupStore_updateStore_self] at hlk
          injection hlk with h3
          subst h3
          exact ⟨Or.inr ha, by rw [hFL]⟩
        · rw [lookupStore_updateStore_other _ _ _ _ hid] at hlk
          exact h id' fl' hlk
      | panicked =>
        rw [ingest_complete_panic top exp now st dom fg FL hpd hFL hsum ha] at hin
        injection hin with h1 h2
        subst h2
        exact absurd rfl hnp
    · rw [ingest_not_ready top exp now st dom fg FL hpd hFL (not_le.mp hsum)] at hin
      injection hin with h1 h2
      subst h1
      intro id' fl' hlk
      by_cases hid : id' = fg.id
      · subst hid
        rw [lookupStore_updateStore_self] at hlk
        injection hlk with h3
        subst h3
        exact ⟨Or.inl (not_le.mp hsum), by rw [hFL]⟩
      · rw [lookupStore_updateStore_other _ _ _ _ hid] at hlk
        exact h id' fl' hlk

theorem runIngest_cons_panic (top : List Char) (exp now : Int) (st st' : Store)
    (d : List Char) (ds : List (List Char))
    (h : ingestGo top exp now st d = (st', .panicked)) :
    runIngest top exp now st (d :: ds) = none := by
  simp only [runIngest]
  rw [h]

/-- The invariant holds on every store an ingestion run reaches. -/
theorem invStore_runIngest (top : List Char) (exp now : Int) :
    ∀ (ds : List (List Char)) (st st' : Store) (ms : List (List Nat)),
    invStore exp now st → runIngest top exp now st ds = some (st', ms) →
    invStore exp now st' := by
  intro ds
  induction ds with
  | nil =>
    intro st st' ms h hrun
    simp only [runIngest] at hrun
    injection hrun with h1
    injection h1 with h2 h3
    subst h2
    exact h
  | cons d ds ih =>
    intro st st' ms h hrun
    rcases hout : ingestGo top exp now st d with ⟨st1, out⟩
    cases out with
    | quiet =>
      rw [runIngest_cons_quiet top exp now st st1 d ds hout] at hrun
      exact ih st1 st' ms
        (invStore_ingest top exp now st d h st1 _ hout (by simp)) hrun
    | emit m =>
      rw [runIngest_cons_emit top exp now st st1 d ds m hout] at hrun
      cases hinner : runIngest top exp now st1 ds with
      | none =>
        rw [hinner] at hrun
        cases hrun
      | some r =>
        obtain ⟨st2, ms2⟩ := r
        rw [hinner] at hrun
        rw [show (Option.map (fun r => (r.1, m :: r.2)) (some (st2, ms2)))
            = some (st2, m :: ms2) from rfl] at hrun
        injection hrun with h1
        injection h1 with h2 h3
        subst h2
        exact ih st1 st2 ms2
          (invStore_ingest top exp now st d h st1 _ hout (by simp)) hinner
    | panicked =>
      rw [runIngest_cons_panic top exp now st st1 d ds hout] at hrun
      cases hrun

/-- Re-ingesting a fragment identical to one already stored for a live
transfer (same id, offset, data, and declared total size) leaves the store
exactly as it was and emits nothing. -/
theorem ingest_duplicate (top : List Char) (exp now : Int) (st : Store)
    (dom : List Char) (fg : fragment) (fl : fragmentList)
    (hp : parseDomain top dom = some fg)
    (hlk : lookupStore st fg.id = some fl)
    (hts : fl.totalSize = fg.totalSize)
    (hfr : lookupFrag fl.fragments fg.offset = some fg)
    (hexp : fl.expiresAt = now + exp)
    (hlive : sumLens fl.fragments < fl.totalSize ∨ assembleGo fl = .err) :
    ingestGo top exp now st dom = (st, .quiet) := by
  obtain ⟨t, fr, e⟩ := fl
  simp only [] at hts hfr hexp hlive
  have hupdf : updateFrags fr fg.offset fg = fr := updateFrags_lookup_self fr _ _ hfr
  have hfl1 : (⟨t, fr, e⟩ : fragmentList) = ⟨fg.totalSize,
      updateFrags ((lookupStore st fg.id).getD ⟨0, [], now + exp⟩).fragments fg.offset fg,
      now + exp⟩ := by
    rw [hlk]
    simp only [Option.getD_some]
    rw [hupdf, hts, hexp]
  rcases hlive with hlt | herr
  · have hres := ingest_not_ready top exp now st dom fg ⟨t, fr, e⟩ hp hfl1 hlt
    rw [updateStore_lookup_self st fg.id ⟨t, fr, e⟩ hlk] at hres
    exact hres
  · by_cases hsum2 : (⟨t, fr, e⟩ : fragmentList).totalSize
        ≤ sumLens (⟨t, fr, e⟩ : fragmentList).fragments
    · have hres := ingest_complete_err top exp now st dom fg ⟨t, fr, e⟩ hp hfl1 hsum2 herr
      rw [updateStore_lookup_self st fg.id ⟨t, fr, e⟩ hlk] at hres
      exact hres
    · have hres := ingest_not_ready top exp now st dom fg ⟨t, fr, e⟩ hp hfl1
        (not_le.mp hsum2)
      rw [updateStore_lookup_self st fg.id ⟨t, fr, e⟩ hlk] at hres
      exact hres

/-- Ingestion runs compose over list append. -/
theorem runIngest_append (top : List Char) (exp now : Int) :
    ∀ (p q : List (List Char)) (st : Store),
    runIngest top exp now st (p ++ q)
      = (runIngest top exp now st p).bind
          (fun r => (runIngest top exp now r.1 q).map (fun r2 => (r2.1, r.2 ++ r2.2))) := by
  intro p
  induction p with
  | nil =>
    intro q st
    simp only [List.nil_append]
    rw [show runIngest top exp now st ([] : List (List Char)) = some (st, []) from rfl]
    rw [show (some ((st, []) : Store × List (List Nat))).bind
        (fun r => (runIngest top exp now r.1 q).map (fun r2 => (r2.1, r.2 ++ r2.2)))
        = (runIngest top exp now st q).map (fun r2 => (r2.1, [] ++ r2.2)) from rfl]
    cases hq : runIngest top exp now st q with
    | none => rfl
    | some r => simp
  | cons d p ih =>
    intro q st
    rcases hout : ingestGo top exp now st d with ⟨st1, out⟩
    cases out with
    | quiet =>
      rw [List.cons_append, runIngest_cons_quiet top exp now st st1 d _ hout,
        runIngest_cons_quiet top exp now st st1 d _ hout, ih]
    | emit m =>
      rw [List.cons_append, runIngest_cons_emit top exp now st st1 d _ m hout,
        runIngest_cons_emit top exp now st st1 d _ m hout, ih]
      cases h1 : runIngest top exp now st1 p with
      | none => rfl
      | some r =>
        obtain ⟨st2, ms2⟩ := r
        simp only [Option.some_bind, Option.map_some', Option.map_map]
        rfl
    | panicked =>
      rw [List.cons_append, runIngest_cons_panic top exp now st st1 d _ hout,
        runIngest_cons_panic top exp now st st1 d _ hout]
      rfl

/-- C5, counterexample.  Retransmitting the very same fragment after its
transfer has completed re-creates the transfer and emits the payload a
second time for the same id, so deliveries are not at-most-once per id. -/
theorem claim_C5_counterexample :
    runIngest "t".toList 0 0 emptyStore
      ["m.8.0.nbuq0000.t".toList, "m.8.0.nbuq0000.t".toList]
      = some (emptyStore, [[104, 105], [104, 105]]) := by
  decide

/-- C5, amended.  While a transfer is still in the store, re-ingesting a
fragment identical to one already stored (same id, offset, data, declared
total size) at that point of the query sequence changes neither the emitted
payloads nor the rest of the run; duplicates arriving after completion are
not covered (they re-open the transfer, see the counterexample). -/
theorem claim_C5_amended (top : List Char) (exp now : Int)
    (p q : List (List Char)) (dom : List Char) (fg : fragment)
    (stP : Store) (msP : List (List Nat)) (fl : fragmentList)
    (hp : parseDomain top dom = some fg)
    (hrun : runIngest top exp now emptyStore p = some (stP, msP))
    (hlk : lookupStore stP fg.id = some fl)
    (hts : fl.totalSize = fg.totalSize)
    (hfr : lookupFrag fl.fragments fg.offset = some fg) :
    runIngest top exp now emptyStore (p ++ dom :: q)
      = runIngest top exp now emptyStore (p ++ q) := by
  have hinv : invStore exp now stP :=
    invStore_runIngest top exp now p emptyStore stP msP (invStore_empty exp now) hrun
  have hstep : ingestGo top exp now stP dom = (stP, .quiet) :=
    ingest_duplicate top exp now stP dom fg fl hp hlk hts hfr
      (hinv fg.id fl hlk).2 (hinv fg.id fl hlk).1
  rw [runIngest_append, runIngest_append, hrun]
  show (runIngest top exp now stP (dom :: q)).map (fun r2 => (r2.1, msP ++ r2.2))
    = (runIngest top exp now stP q).map (fun r2 => (r2.1, msP ++ r2.2))
  rw [runIngest_cons_quiet top exp now stP stP dom q hstep]

/-- Witness for the amended C5: the first half of a two-fragment transfer is
retransmitted while the transfer is still incomplete; the run's result is
unchanged. -/
theorem claim_C5_amended_witness :
    runIngest "t".toList 0 0 emptyStore
      (["m.8.0.nbuq.t".toList] ++ "m.8.0.nbuq.t".toList :: ["m.8.4.0000.t".toList])
      = runIngest "t".toList 0 0 emptyStore
          (["m.8.0.nbuq.t".toList] ++ ["m.8.4.0000.t".toList]) := by
  exact claim_C5_amended "t".toList 0 0 ["m.8.0.nbuq.t".toList] ["m.8.4.0000.t".toList]
    "m.8.0.nbuq.t".toList ⟨"m".toList, 8, 0, "nbuq".toList⟩
    [("m".toList, ⟨8, [(0, ⟨"m".toList, 8, 0, "nbuq".toList⟩)], 0⟩)] []
    ⟨8, [(0, ⟨"m".toList, 8, 0, "nbuq".toList⟩)], 0⟩
    (by decide) (by decide) (by decide) (by decide) (by decide)


/-- Witness for C10: an 8-byte buffer, a fragment at offset 4 carrying
8 bytes; the 4 excess bytes are dropped and decoding runs on the truncated
buffer (here failing on the NUL fill, which is the `.err` outcome). -/
theorem claim_C10_witness :
    assembleGo ⟨((8 : Nat) : Int),
        [(((4 : Nat) : Int),
          ⟨"m".toList, ((8 : Nat) : Int), ((4 : Nat) : Int), "aaaaaaaa".toList⟩)], 0⟩
      = .err := by
  rw [(claim_C10 8 4 "aaaaaaaa".toList "m".toList 0 (by norm_num) (by norm_num)).2]
  decide

end Tunnel
